import Mathlib

/-!
# A minimal NATS client: wire codec, read loop, registry and ping/pong gate

Shallow embedding of `client/client.go`.  Go strings and byte slices are lists of
bytes, Go `int` is a 64-bit two's complement integer, the buffered writer and the
connection are explicit state, and the read loop is a function of the bytes that
remain on the connection.  Logging has no effect on the protocol state and is left out.
-/

namespace NatsClient

/-! ## Bytes, runes and UTF-8 (the Go runtime's view of a string)

A Go `rune`, a Unicode code point, is kept as a natural number. -/

/-- A byte of a Go `string` or `[]byte`. -/
abbrev Byte := UInt8

/-- The bytes of an ASCII string literal of the source. -/
def ascii (s : String) : List Byte := s.data.map (fun c => UInt8.ofNat c.toNat)

/-- Value of `utf8.RuneError`, the rune produced for an invalid encoding. -/
def RuneError : Nat := 0xFFFD

/-- A UTF-8 continuation byte in the range `lo..hi`. -/
def inRange (b : Byte) (lo hi : Nat) : Bool := decide (lo ≤ b.toNat) && decide (b.toNat ≤ hi)

/-- Go `utf8.DecodeRune`: the first rune of `p` and its width in bytes; an invalid or
truncated encoding gives `(RuneError, 1)`, the empty input `(RuneError, 0)`. -/
def DecodeRune : List Byte → Nat × Nat
  | [] => (RuneError, 0)
  | b0 :: rest =>
    let x := b0.toNat
    if x < 0x80 then (x, 1)
    else if 0xC2 ≤ x ∧ x ≤ 0xDF then
      match rest with
      | b1 :: _ =>
        if inRange b1 0x80 0xBF then ((x % 32) * 64 + b1.toNat % 64, 2) else (RuneError, 1)
      | _ => (RuneError, 1)
    else if 0xE0 ≤ x ∧ x ≤ 0xEF then
      match rest with
      | b1 :: b2 :: _ =>
        let lo := if x = 0xE0 then 0xA0 else 0x80
        let hi := if x = 0xED then 0x9F else 0xBF
        if inRange b1 lo hi && inRange b2 0x80 0xBF then
          ((x % 16) * 4096 + (b1.toNat % 64) * 64 + b2.toNat % 64, 3)
        else (RuneError, 1)
      | _ => (RuneError, 1)
    else if 0xF0 ≤ x ∧ x ≤ 0xF4 then
      match rest with
      | b1 :: b2 :: b3 :: _ =>
        let lo := if x = 0xF0 then 0x90 else 0x80
        let hi := if x = 0xF4 then 0x8F else 0xBF
        if inRange b1 lo hi && inRange b2 0x80 0xBF && inRange b3 0x80 0xBF then
          ((x % 8) * 262144 + (b1.toNat % 64) * 4096 + (b2.toNat % 64) * 64 + b3.toNat % 64, 4)
        else (RuneError, 1)
      | _ => (RuneError, 1)
    else (RuneError, 1)

/-- Go `utf8.AppendRune` applied to the empty slice: the UTF-8 encoding of a rune;
surrogates and values above U+10FFFF are encoded as U+FFFD. -/
def AppendRune (r : Nat) : List Byte :=
  if r < 0x80 then [UInt8.ofNat r]
  else if r < 0x800 then [UInt8.ofNat (0xC0 + r / 64), UInt8.ofNat (0x80 + r % 64)]
  else if 0x10FFFF < r ∨ (0xD800 ≤ r ∧ r ≤ 0xDFFF) then [0xEF, 0xBF, 0xBD]
  else if r < 0x10000 then
    [UInt8.ofNat (0xE0 + r / 4096), UInt8.ofNat (0x80 + r / 64 % 64), UInt8.ofNat (0x80 + r % 64)]
  else
    [UInt8.ofNat (0xF0 + r / 262144), UInt8.ofNat (0x80 + r / 4096 % 64),
     UInt8.ofNat (0x80 + r / 64 % 64), UInt8.ofNat (0x80 + r % 64)]

/-- The runes of a byte string in reading order, each with the bytes it was decoded
from: what a `for range` over a Go string, or successive `ReadRune` calls, deliver.
The fuel bounds the number of runes and is the length of the input at every use. -/
def decodeRunesAux : Nat → List Byte → List (Nat × List Byte)
  | 0, _ => []
  | _, [] => []
  | fuel + 1, b :: bs =>
    let d := DecodeRune (b :: bs)
    (d.1, (b :: bs).take d.2) :: decodeRunesAux fuel ((b :: bs).drop d.2)

/-- The runes of a byte string, each with its source bytes. -/
def decodeRunes (s : List Byte) : List (Nat × List Byte) := decodeRunesAux s.length s

/-- The white space of Go's `unicode.IsSpace` and of the `fmt` scanner. -/
def isSpace (r : Nat) : Bool :=
  (0x09 ≤ r && r ≤ 0x0D) || r = 0x20 || r = 0x85 || r = 0xA0 || r = 0x1680 ||
  (0x2000 ≤ r && r ≤ 0x200A) || r = 0x2028 || r = 0x2029 || r = 0x202F || r = 0x205F ||
  r = 0x3000

/-! ## The `strings` functions used by the read loop -/

/-- Go `strings.SplitN(s, " ", 2)`: the text before the first space and the text after
it, or the whole string alone when it holds no space. -/
def SplitN2 : List Byte → List (List Byte)
  | [] => [[]]
  | b :: bs =>
    if b = 0x20 then [[], bs]
    else
      match SplitN2 bs with
      | [h] => [b :: h]
      | [h, t] => [b :: h, t]
      | other => other

/-- Go `strings.Count(s, " ")`. -/
def Count (s : List Byte) : Nat := (s.filter (fun b => b = 0x20)).length

/-- Go `strings.TrimSpace`: the string without its leading and trailing white space. -/
def TrimSpace (s : List Byte) : List Byte :=
  let rs := (decodeRunes s).dropWhile (fun p => isSpace p.1)
  let rs := (rs.reverse.dropWhile (fun p => isSpace p.1)).reverse
  (rs.map (fun p => p.2)).flatten

/-! ## The `fmt` scanner behind `fmt.Sscanf` -/

/-- One element of a `Sscanf` format: the verb `%s`, the verb `%d`, or a run of spaces. -/
inductive Directive
  | verbS
  | verbD
  | space
  deriving DecidableEq, Repr

/-- A value stored through one of the pointer arguments of `Sscanf`. -/
inductive Arg
  | str (s : List Byte)
  | int (n : Int)
  deriving DecidableEq, Repr

/-- Scanner `SkipSpace` with `nlIsSpace` off, as `Sscanf` runs it: white space is
consumed, a newline is the error "unexpected newline" (`none`). -/
def SkipSpace : List Nat → Option (List Nat)
  | [] => some []
  | r :: rs =>
    if r = 0x0A then none
    else if isSpace r then SkipSpace rs
    else some (r :: rs)

/-- The part of the scanner's `advance` that matches a space of the format: the input
must be at its end or continue with white space other than a newline, and that white
space is consumed up to the next newline or other rune. -/
def advanceSpace : List Nat → Option (List Nat)
  | [] => some []
  | r :: rs =>
    if !isSpace r then none
    else if r = 0x0A then none
    else some (rs.dropWhile (fun c => isSpace c && c != 0x0A))

/-- Verb `%s`: skip white space, fail at the end of the input, then take the runes up
to the next white space; the token is written back rune by rune. -/
def convertString (input : List Nat) : Option (List Byte × List Nat) :=
  match SkipSpace input with
  | none => none
  | some [] => none
  | some (r :: rs) =>
    let tok := (r :: rs).takeWhile (fun c => !isSpace c)
    some ((tok.map AppendRune).flatten, (r :: rs).dropWhile (fun c => !isSpace c))

/-- A decimal digit rune. -/
def isDigit (r : Nat) : Bool := 0x30 ≤ r && r ≤ 0x39

/-- The number written by a run of decimal digits, most significant first. -/
def digitsValue (ds : List Nat) : Nat := ds.foldl (fun acc d => acc * 10 + (d - 0x30)) 0

/-- Width of the Go `int` of the 64-bit platforms. -/
def intBits : Nat := 64

/-- Verb `%d` into an `*int`: skip white space, accept one sign, require a digit, take
the run of digits, and convert it as `strconv.ParseInt(tok, 10, 64)` does, which
rejects a value outside the 64-bit range. -/
def scanInt (input : List Nat) : Option (Int × List Nat) :=
  match SkipSpace input with
  | none => none
  | some [] => none
  | some (r :: rs) =>
    let neg := decide (r = 0x2D)
    let body := if r = 0x2B ∨ r = 0x2D then rs else r :: rs
    let ds := body.takeWhile isDigit
    let rest := body.dropWhile isDigit
    if ds = [] then none
    else
      let v := digitsValue ds
      if neg then (if v ≤ 2 ^ (intBits - 1) then some (-(v : Int), rest) else none)
      else (if v < 2 ^ (intBits - 1) then some ((v : Int), rest) else none)

/-- The scanner's `doScanf` over the runes of the input: every directive in turn, a
verb first skipping white space; input left over after the last verb is not an error.
`none` is a non-nil error. -/
def doScanf : List Directive → List Nat → Option (List Arg)
  | [], _ => some []
  | Directive.space :: fmt, input =>
    match advanceSpace input with
    | none => none
    | some rest => doScanf fmt rest
  | Directive.verbS :: fmt, input =>
    match SkipSpace input with
    | none => none
    | some i1 =>
      match convertString i1 with
      | none => none
      | some (s, rest) => (doScanf fmt rest).map (fun as => Arg.str s :: as)
  | Directive.verbD :: fmt, input =>
    match SkipSpace input with
    | none => none
    | some i1 =>
      match scanInt i1 with
      | none => none
      | some (n, rest) => (doScanf fmt rest).map (fun as => Arg.int n :: as)

/-- Go `fmt.Sscanf(str, format, ...)`: the scanner reads the string rune by rune. -/
def Sscanf (str : List Byte) (format : List Directive) : Option (List Arg) :=
  doScanf format ((decodeRunes str).map (fun p => p.1))

/-- The format `"%s %d %d"`. -/
def fmtNoReply : List Directive :=
  [Directive.verbS, Directive.space, Directive.verbD, Directive.space, Directive.verbD]

/-- The format `"%s %d %s %d"`. -/
def fmtReply : List Directive :=
  [Directive.verbS, Directive.space, Directive.verbD, Directive.space, Directive.verbS,
   Directive.space, Directive.verbD]

/-! ## `fmt.Sprintf` with `%d` -/

/-- The decimal digits of a natural number, most significant first; the fuel bounds
the number of digits. -/
def natDigits : Nat → Nat → List Byte → List Byte
  | 0, _, acc => acc
  | fuel + 1, n, acc =>
    let acc1 := UInt8.ofNat (0x30 + n % 10) :: acc
    if n / 10 = 0 then acc1 else natDigits fuel (n / 10) acc1

/-- Decimal text of a natural number, as `%d` prints it. -/
def formatNat (n : Nat) : List Byte := natDigits (n + 1) n []

/-- Decimal text of an integer, as `%d` prints it: a minus sign before a negative. -/
def formatInt (n : Int) : List Byte :=
  if n < 0 then 0x2D :: formatNat n.natAbs else formatNat n.natAbs

/-! ## The connection: the bytes to read and the buffered writer -/

/-- Go `bufio.Reader.ReadString('\n')` on the bytes that remain on the connection: the
line up to and including the first newline, and what follows it; `none` is the error
returned when the input ends before a newline. -/
def ReadString : List Byte → Option (List Byte × List Byte)
  | [] => none
  | b :: bs =>
    if b = 0x0A then some ([b], bs)
    else
      match ReadString bs with
      | none => none
      | some (line, rest) => some (b :: line, rest)

/-- Go `io.ReadFull(r, buf)` for a buffer of `n` bytes: exactly `n` bytes and the rest
of the input, or `none` (`io.EOF`, `io.ErrUnexpectedEOF`) when fewer remain.  A buffer
of length zero is filled without reading. -/
def ReadFull (input : List Byte) (n : Nat) : Option (List Byte × List Byte) :=
  if n ≤ input.length then some (input.take n, input.drop n) else none

/-- The largest allocation of the Go runtime on a 64-bit platform (`maxAlloc`: 48 bits
of heap address). -/
def maxAlloc : Nat := 2 ^ 48

/-- Go `make([]byte, size)` as far as `runtime.makeslice` checks it: the length of the
new slice, or `none` for the panic "makeslice: len out of range" when `size` is negative
or more than `maxAlloc` bytes.  A slice that passes the check is allocated: the memory
of the machine is not part of the model. -/
def makeslice (size : Int) : Option Nat :=
  if size < 0 ∨ (maxAlloc : Int) < size then none else some size.toNat

/-- The write side of `net.Conn`: the bytes it has accepted so far, and what each coming
`Write` call will do: `none` accepts the whole slice, `some n` accepts at most `n` bytes
and returns an error.  Once the list is used up every write succeeds. -/
structure Conn where
  wire : List Byte
  faults : List (Option Nat)

/-- One `Write` on the connection: the connection afterwards, the count of bytes written
and whether an error was returned. -/
def Conn.Write (c : Conn) (p : List Byte) : Conn × Nat × Bool :=
  match c.faults with
  | [] => ({ c with wire := c.wire ++ p }, p.length, false)
  | none :: fs => ({ wire := c.wire ++ p, faults := fs }, p.length, false)
  | some n :: fs => ({ wire := c.wire ++ p.take n, faults := fs }, min n p.length, true)

/-- Go `bufio.Writer` over the connection: the bytes buffered and not yet forwarded,
and the sticky error `b.err`.  A method of the writer returns a non-nil error exactly
when `err` is set afterwards. -/
structure Writer where
  conn : Conn
  buf : List Byte
  err : Bool

/-- Size of the buffer of `bufio.NewWriter`. -/
def defaultBufSize : Nat := 4096

/-- Go `bufio.Writer.Available`. -/
def Writer.Available (b : Writer) : Nat := defaultBufSize - b.buf.length

/-- Go `bufio.Writer.Flush`: nothing after an error or with an empty buffer; otherwise
one `Write` of the buffered bytes, keeping the unwritten part and the error if it fails. -/
def Writer.Flush (b : Writer) : Writer :=
  if b.err then b
  else if b.buf = [] then b
  else
    match b.conn.Write b.buf with
    | (c, n, true) => { conn := c, buf := b.buf.drop n, err := true }
    | (c, _, false) => { conn := c, buf := [], err := false }

/-- The loop of `bufio.Writer.WriteString`: while the string does not fit and no error
is set, fill the buffer and flush it; then copy what is left.  The fuel bounds the
iterations. -/
def Writer.WriteStringLoop : Nat → Writer → List Byte → Writer
  | 0, b, _ => b
  | fuel + 1, b, s =>
    if b.Available < s.length ∧ b.err = false then
      Writer.WriteStringLoop fuel
        (Writer.Flush { b with buf := b.buf ++ s.take b.Available }) (s.drop b.Available)
    else if b.err then b
    else { b with buf := b.buf ++ s }

/-- Go `bufio.Writer.WriteString`. -/
def Writer.WriteString (b : Writer) (s : List Byte) : Writer :=
  Writer.WriteStringLoop (s.length + 2) b s

/-- The loop of `bufio.Writer.Write`: as `WriteString`, but a slice larger than the
room left goes straight to the connection when nothing is buffered. -/
def Writer.WriteLoop : Nat → Writer → List Byte → Writer
  | 0, b, _ => b
  | fuel + 1, b, p =>
    if b.Available < p.length ∧ b.err = false then
      if b.buf = [] then
        match b.conn.Write p with
        | (c, n, e) => Writer.WriteLoop fuel { b with conn := c, err := e } (p.drop n)
      else
        Writer.WriteLoop fuel
          (Writer.Flush { b with buf := b.buf ++ p.take b.Available }) (p.drop b.Available)
    else if b.err then b
    else { b with buf := b.buf ++ p }

/-- Go `bufio.Writer.Write`. -/
def Writer.Write (b : Writer) (p : List Byte) : Writer :=
  Writer.WriteLoop (p.length + 2) b p

/-! ## The client -/

/-- The channel `pongs chan struct{}`: its capacity and the number of signals buffered. -/
structure Chan where
  cap : Nat
  len : Nat
  deriving DecidableEq, Repr

/-- What the client does that is visible outside its own fields, in order.  Callbacks
are values of a type `CB`; running one is the event `callback`. -/
inductive Event (CB : Type)
  | write (data : List Byte) (held : Bool)
  | flush (held : Bool)
  | processInfo (line : List Byte)
  | processMsg (subject reply : List Byte) (sid : Int) (payload : List Byte)
  | callback (cb : CB) (subject reply payload : List Byte)
  | processErr (msg : List Byte)
  deriving DecidableEq, Repr

/-- The struct `Client`.  `r` holds the bytes still to be read from the connection, `w`
the buffered writer, `mu` whether the embedded mutex is held, and `trace` the events so
far (with each writer call, whether the mutex was held when it was made). -/
structure Client (CB : Type) where
  r : List Byte
  w : Writer
  sid : Int
  subs : Int → Option CB
  pongs : Option Chan
  mu : Bool
  trace : List (Event CB)

/-- The errors the methods return. -/
inductive Error
  | write
  | invalidPongs
  | flushTimeout
  deriving DecidableEq, Repr

/-- The sum of two Go `int` values, wrapping at 64 bits. -/
def addInt (x y : Int) : Int := (x + y + 2 ^ (intBits - 1)) % 2 ^ intBits - 2 ^ (intBits - 1)

variable {CB : Type}

/-- The state `Connect` leaves behind: empty registry, `pongs` of capacity 2, counter 0,
the `CONNECT` line already flushed to the connection. -/
def Client.connected (input : List Byte) (faults : List (Option Nat)) : Client CB :=
  { r := input
    w := { conn := { wire := ascii "CONNECT \x7b\"name\":\"gopher\",\"verbose\":false\x7d\r\n",
                     faults := faults },
           buf := [], err := false }
    sid := 0
    subs := fun _ => none
    pongs := some { cap := 2, len := 0 }
    mu := false
    trace := [] }

/-- Statement `c.Lock()`. -/
def Client.Lock (c : Client CB) : Client CB := { c with mu := true }

/-- Statement `c.Unlock()`. -/
def Client.Unlock (c : Client CB) : Client CB := { c with mu := false }

/-- Call `c.w.WriteString(s)`. -/
def Client.wWriteString (c : Client CB) (s : List Byte) : Client CB :=
  { c with w := c.w.WriteString s, trace := c.trace ++ [Event.write s c.mu] }

/-- Call `c.w.Write(p)`. -/
def Client.wWrite (c : Client CB) (p : List Byte) : Client CB :=
  { c with w := c.w.Write p, trace := c.trace ++ [Event.write p c.mu] }

/-- Call `c.w.Flush()`. -/
def Client.wFlush (c : Client CB) : Client CB :=
  { c with w := c.w.Flush, trace := c.trace ++ [Event.flush c.mu] }

/-- Text of `fmt.Sprintf("PUB %s %s %d\r\n", subject, reply, n)`. -/
def pubLine (subject reply : List Byte) (n : Int) : List Byte :=
  ascii "PUB " ++ subject ++ ascii " " ++ reply ++ ascii " " ++ formatInt n ++ ascii "\r\n"

/-- Text of `fmt.Sprintf("SUB %s %s %d\r\n", subject, queue, sid)`. -/
def subLine (subject queue : List Byte) (sid : Int) : List Byte :=
  ascii "SUB " ++ subject ++ ascii " " ++ queue ++ ascii " " ++ formatInt sid ++ ascii "\r\n"

/-- Method `Publish`. -/
def Client.Publish (c : Client CB) (subject reply payload : List Byte) :
    Client CB × Option Error :=
  let c := c.Lock
  let c := c.wWriteString (pubLine subject reply payload.length)
  if c.w.err then (c.Unlock, some Error.write)
  else
    let c := c.wWrite payload
    if c.w.err then (c.Unlock, some Error.write)
    else
      let c := c.wWriteString (ascii "\r\n")
      if c.w.err then (c.Unlock, some Error.write)
      else
        let c := c.wFlush
        if c.w.err then (c.Unlock, some Error.write)
        else (c.Unlock, none)

/-- Method `Subscribe`. -/
def Client.Subscribe (c : Client CB) (subject queue : List Byte) (cb : CB) :
    Client CB × Option Error :=
  let c := c.Lock
  let c := { c with sid := addInt c.sid 1 }
  let sid := c.sid
  let c := c.wWriteString (subLine subject queue sid)
  if c.w.err then (c.Unlock, some Error.write)
  else
    let c := c.wFlush
    if c.w.err then (c.Unlock, some Error.write)
    else
      let c := { c with subs := Function.update c.subs sid (some cb) }
      (c.Unlock, none)

/-- Method `Flush`.  `pongInTime` says whether the read loop passes a signal to the
waiting `select` before the five seconds of `time.After` are over. -/
def Client.Flush (c : Client CB) (pongInTime : Bool) : Client CB × Option Error :=
  let c := c.wWriteString (ascii "PING\r\n")
  if c.w.err then (c, some Error.write)
  else
    let c := c.wFlush
    if c.w.err then (c, some Error.write)
    else
      let c := c.Lock
      let pongs := c.pongs
      let c := c.Unlock
      match pongs with
      | none => (c, some Error.invalidPongs)
      | some ch =>
        if 0 < ch.len then ({ c with pongs := some { ch with len := ch.len - 1 } }, none)
        else if pongInTime then (c, none)
        else (c, some Error.flushTimeout)

/-- Method `processInfo`: the line is parsed and logged. -/
def Client.processInfo (c : Client CB) (line : List Byte) : Client CB :=
  { c with trace := c.trace ++ [Event.processInfo line] }

/-- Method `processMsg`. -/
def Client.processMsg (c : Client CB) (subj reply : List Byte) (sid : Int)
    (payload : List Byte) : Client CB :=
  let c := { c with trace := c.trace ++ [Event.processMsg subj reply sid payload] }
  let c := c.Lock
  let found := c.subs sid
  let c := c.Unlock
  match found with
  | some cb => { c with trace := c.trace ++ [Event.callback cb subj reply payload] }
  | none => c

/-- Method `processPing`: the errors of the two writer calls are dropped. -/
def Client.processPing (c : Client CB) : Client CB :=
  let c := c.wWriteString (ascii "PONG\r\n")
  c.wFlush

/-- Method `processPong`.  The send `pongs <- struct{}{}` completes when the channel has
room; on a full channel it waits for a receiver, and `none` is that wait. -/
def Client.processPong (c : Client CB) : Option (Client CB) :=
  let c := c.Lock
  let pongs := c.pongs
  let c := c.Unlock
  match pongs with
  | none => some c
  | some ch =>
    if ch.len < ch.cap then some { c with pongs := some { ch with len := ch.len + 1 } }
    else none

/-- Method `processErr`: the message is logged. -/
def Client.processErr (c : Client CB) (msg : List Byte) : Client CB :=
  { c with trace := c.trace ++ [Event.processErr msg] }

/-- The ways the read loop stops: a `log.Fatalf` (which exits the process), a runtime
panic, or a send that waits on a full channel. -/
inductive Halt
  | fatalRead
  | fatalMalformed
  | fatalScan
  | fatalGather
  | panicIndex
  | panicMakeslice
  | blockedSend
  deriving DecidableEq, Repr

/-- Result of one iteration of the read loop. -/
inductive Step (CB : Type)
  | next (c : Client CB)
  | halt (c : Client CB) (h : Halt)

/-- The body of the `for` loop of `runParserLoop`. -/
def Client.parserLoopBody (c : Client CB) : Step CB :=
  match ReadString c.r with
  | none => Step.halt c Halt.fatalRead
  | some (line, rest) =>
    let c := { c with r := rest }
    match SplitN2 line with
    | [] => Step.halt c Halt.fatalMalformed
    | a0 :: args =>
      let op := TrimSpace a0
      if op = ascii "MSG" then
        match args.head? with
        | none => Step.halt c Halt.panicIndex
        | some a1 =>
          let n := Count a1 + 1
          let scanned : Except Halt (List Byte × List Byte × Int × Int) :=
            if n = 3 then
              match Sscanf a1 fmtNoReply with
              | some [Arg.str subject, Arg.int sid, Arg.int size] =>
                Except.ok (subject, [], sid, size)
              | _ => Except.error Halt.fatalScan
            else if n = 4 then
              match Sscanf a1 fmtReply with
              | some [Arg.str subject, Arg.int sid, Arg.str reply, Arg.int size] =>
                Except.ok (subject, reply, sid, size)
              | _ => Except.error Halt.fatalScan
            else Except.error Halt.fatalMalformed
          match scanned with
          | Except.error h => Step.halt c h
          | Except.ok (subject, reply, sid, size) =>
            match makeslice size with
            | none => Step.halt c Halt.panicMakeslice
            | some n =>
              match ReadFull c.r n with
              | none => Step.halt c Halt.fatalGather
              | some (payload, rest1) =>
                Step.next (Client.processMsg { c with r := rest1 } subject reply sid payload)
      else if op = ascii "INFO" then
        match args.head? with
        | none => Step.halt c Halt.panicIndex
        | some a1 => Step.next (c.processInfo a1)
      else if op = ascii "PING" then Step.next c.processPing
      else if op = ascii "PONG" then
        match c.processPong with
        | none => Step.halt c Halt.blockedSend
        | some c1 => Step.next c1
      else if op = ascii "+OK" then Step.next c
      else if op = ascii "-ERR" then
        match args.head? with
        | none => Step.halt c Halt.panicIndex
        | some a1 => Step.next (c.processErr a1)
      else Step.next c

/-- Method `runParserLoop`, run for at most `fuel` iterations: the client when the loop
stopped and the reason, or `none` when the iterations allowed were used up. -/
def Client.runParserLoop : Nat → Client CB → Client CB × Option Halt
  | 0, c => (c, none)
  | fuel + 1, c =>
    match c.parserLoopBody with
    | Step.next c1 => Client.runParserLoop fuel c1
    | Step.halt c1 h => (c1, some h)

/-! ## Clients used in the examples -/

/-- A client just connected that has `input` still to read. -/
def fresh (input : String) : Client Unit := Client.connected (ascii input) []

/-- A client just connected whose `pongs` channel already holds `k` signals. -/
def gateWith (k : Nat) : Client Unit :=
  { (Client.connected [] [] : Client Unit) with pongs := some { cap := 2, len := k } }

/-! ## Sequences of calls on one client -/

/-- A call of one of the three public methods, with its arguments; for `Flush`, whether
a signal reaches the waiting `select` in time. -/
inductive Call (CB : Type)
  | publish (subject reply payload : List Byte)
  | subscribe (subject queue : List Byte) (cb : CB)
  | flush (pongInTime : Bool)

/-- The client after one call, and the error the call returned. -/
def Client.call (c : Client CB) : Call CB → Client CB × Option Error
  | Call.publish subject reply payload => c.Publish subject reply payload
  | Call.subscribe subject queue cb => c.Subscribe subject queue cb
  | Call.flush pongInTime => c.Flush pongInTime

/-- Whether the call is a `Subscribe` and returned no error. -/
def subscribed : Call CB → Option Error → Bool
  | Call.subscribe _ _ _, none => true
  | _, _ => false

/-- The client after a sequence of calls made one after the other, and the number of
`Subscribe` calls among them that returned no error. -/
def Client.run (c : Client CB) : List (Call CB) → Client CB × Nat
  | [] => (c, 0)
  | k :: ks =>
    let r := c.call k
    let rest := Client.run r.1 ks
    (rest.1, (if subscribed k r.2 then 1 else 0) + rest.2)

/-- Number of `Subscribe` calls in a sequence, whatever they returned. -/
def subscribeCalls : List (Call CB) → Nat
  | [] => 0
  | Call.subscribe _ _ _ :: ks => subscribeCalls ks + 1
  | _ :: ks => subscribeCalls ks

/-! ## Text tokens and the `MSG` frame -/

/-- A Unicode scalar value: a code point up to U+10FFFF that is not a surrogate. -/
def isScalar (r : Nat) : Bool := r < 0xD800 || (0xE000 ≤ r && r ≤ 0x10FFFF)

/-- The UTF-8 bytes of a sequence of code points: the Go string with these runes. -/
def utf8 (rs : List Nat) : List Byte := (rs.map AppendRune).flatten

/-- A token of a control line, given by its code points: not empty, every code point a
Unicode scalar value, none of them white space. -/
def isToken (rs : List Nat) : Prop :=
  rs ≠ [] ∧ ∀ r ∈ rs, isScalar r = true ∧ isSpace r = false

/-- The bytes `MSG <subject> <sid> [<reply>] <len>\r\n<payload>\r\n` a server sends to
deliver `payload`, with `len` the decimal length of the payload. -/
def msgFrame (subject : List Byte) (sid : Int) (reply : Option (List Byte))
    (payload : List Byte) : List Byte :=
  ascii "MSG " ++ subject ++ ascii " " ++ formatInt sid ++
    (match reply with
     | none => []
     | some r => ascii " " ++ r) ++
    ascii " " ++ formatNat payload.length ++ ascii "\r\n" ++ payload ++ ascii "\r\n"

/-- The code points `I` are the text of a number that `%d` reads as `v`: `I` is not
empty, holds no white space, and scanning it up to a following non-digit gives `v`. -/
def scansAs (I : List Nat) (v : Int) : Prop :=
  I ≠ [] ∧ (∀ r ∈ I, isSpace r = false ∧ isScalar r = true) ∧
    ∀ (x : Nat) (t : List Nat), isDigit x = false → scanInt (I ++ x :: t) = some (v, x :: t)

/-! ## The buffered writer: what a successful call has done -/

theorem Writer.Flush_of_err (b : Writer) (h : b.err = true) : b.Flush = b := by
  simp [Writer.Flush, h]

theorem Writer.Flush_ok (b : Writer) (h : b.Flush.err = false) :
    b.err = false ∧ b.Flush.conn.wire = b.conn.wire ++ b.buf ∧ b.Flush.buf = [] := by
  unfold Writer.Flush at h ⊢
  by_cases he : b.err = true
  · simp [he] at h
  · simp only [he] at h ⊢
    by_cases hb : b.buf = []
    · simp [hb] at h ⊢
    · simp only [hb, if_false] at h ⊢
      simp only [Conn.Write] at h ⊢
      cases hf : b.conn.faults with
      | nil => simp [hf] at h ⊢
      | cons f fs =>
        cases f with
        | none => simp [hf] at h ⊢
        | some n => simp [hf] at h

theorem Writer.WriteStringLoop_of_err (fuel : Nat) (b : Writer) (s : List Byte)
    (h : b.err = true) : Writer.WriteStringLoop fuel b s = b := by
  cases fuel with
  | zero => rfl
  | succ n => simp [Writer.WriteStringLoop, h]

theorem Writer.WriteStringLoop_ok (fuel : Nat) : ∀ (b : Writer) (s : List Byte),
    s.length + (if defaultBufSize ≤ b.buf.length then 1 else 0) < fuel →
    (Writer.WriteStringLoop fuel b s).err = false →
    b.err = false ∧
      (Writer.WriteStringLoop fuel b s).conn.wire ++ (Writer.WriteStringLoop fuel b s).buf
        = b.conn.wire ++ b.buf ++ s := by
  induction fuel with
  | zero => intro b s h; omega
  | succ n ih =>
    intro b s hm hok
    by_cases he : b.err = true
    · rw [Writer.WriteStringLoop_of_err _ _ _ he] at hok
      rw [he] at hok; cases hok
    · have he' : b.err = false := by simpa using he
      refine ⟨he', ?_⟩
      by_cases hc : b.Available < s.length
      · have hstep : Writer.WriteStringLoop (n + 1) b s =
            Writer.WriteStringLoop n
              (Writer.Flush { b with buf := b.buf ++ s.take b.Available })
              (s.drop b.Available) := by
          rw [Writer.WriteStringLoop, if_pos ⟨hc, he'⟩]
        rw [hstep] at hok ⊢
        generalize hb1 : Writer.Flush { b with buf := b.buf ++ s.take b.Available } = b1
          at hok ⊢
        by_cases he1 : b1.err = true
        · rw [Writer.WriteStringLoop_of_err _ _ _ he1] at hok
          rw [he1] at hok; cases hok
        · have he1' : b1.err = false := by simpa using he1
          have hf := Writer.Flush_ok { b with buf := b.buf ++ s.take b.Available }
            (by rw [hb1]; exact he1')
          rw [hb1] at hf
          obtain ⟨_, hw, hbuf⟩ := hf
          have hm1 : (s.drop b.Available).length +
              (if defaultBufSize ≤ b1.buf.length then 1 else 0) < n := by
            rw [hbuf]
            simp only [Writer.Available, defaultBufSize, List.length_drop,
              List.length_nil] at hc hm ⊢
            split at hm <;> simp at hm ⊢ <;> omega
          obtain ⟨_, h2⟩ := ih b1 _ hm1 hok
          rw [h2, hw, hbuf]
          simp [List.append_assoc]
      · have hstep : Writer.WriteStringLoop (n + 1) b s = { b with buf := b.buf ++ s } := by
          rw [Writer.WriteStringLoop, if_neg (fun h => hc h.1), if_neg he]
        rw [hstep]
        simp [List.append_assoc]

theorem Writer.WriteString_of_err (b : Writer) (s : List Byte) (h : b.err = true) :
    b.WriteString s = b :=
  Writer.WriteStringLoop_of_err _ b s h

theorem Writer.WriteString_ok (b : Writer) (s : List Byte) (h : (b.WriteString s).err = false) :
    b.err = false ∧
      (b.WriteString s).conn.wire ++ (b.WriteString s).buf = b.conn.wire ++ b.buf ++ s := by
  apply Writer.WriteStringLoop_ok (s.length + 2) b s _ h
  split <;> omega

theorem Writer.WriteLoop_of_err (fuel : Nat) (b : Writer) (p : List Byte)
    (h : b.err = true) : Writer.WriteLoop fuel b p = b := by
  cases fuel with
  | zero => rfl
  | succ n => simp [Writer.WriteLoop, h]

theorem Writer.WriteLoop_ok (fuel : Nat) : ∀ (b : Writer) (p : List Byte),
    p.length + (if defaultBufSize ≤ b.buf.length then 1 else 0) < fuel →
    (Writer.WriteLoop fuel b p).err = false →
    b.err = false ∧
      (Writer.WriteLoop fuel b p).conn.wire ++ (Writer.WriteLoop fuel b p).buf
        = b.conn.wire ++ b.buf ++ p := by
  induction fuel with
  | zero => intro b p h; omega
  | succ n ih =>
    intro b p hm hok
    by_cases he : b.err = true
    · rw [Writer.WriteLoop_of_err _ _ _ he] at hok
      rw [he] at hok; cases hok
    · have he' : b.err = false := by simpa using he
      refine ⟨he', ?_⟩
      by_cases hc : b.Available < p.length
      · by_cases hb : b.buf = []
        · have hstep : Writer.WriteLoop (n + 1) b p =
              Writer.WriteLoop n
                { b with conn := (b.conn.Write p).1, err := (b.conn.Write p).2.2 }
                (p.drop (b.conn.Write p).2.1) := by
            rw [Writer.WriteLoop, if_pos ⟨hc, he'⟩, if_pos hb]
          rw [hstep] at hok ⊢
          generalize hb1 :
            ({ b with conn := (b.conn.Write p).1, err := (b.conn.Write p).2.2 } : Writer) = b1
            at hok ⊢
          by_cases he1 : b1.err = true
          · rw [Writer.WriteLoop_of_err _ _ _ he1] at hok
            rw [he1] at hok; cases hok
          · have he1' : b1.err = false := by simpa using he1
            have hwr : (b.conn.Write p).2.2 = false := by rw [← hb1] at he1'; exact he1'
            have hfull : (b.conn.Write p).1.wire = b.conn.wire ++ p ∧
                (b.conn.Write p).2.1 = p.length := by
              unfold Conn.Write at hwr ⊢
              cases hf : b.conn.faults with
              | nil => simp [hf]
              | cons f fs =>
                cases f with
                | none => simp [hf]
                | some k => simp [hf] at hwr
            have hm1 : (p.drop (b.conn.Write p).2.1).length +
                (if defaultBufSize ≤ b1.buf.length then 1 else 0) < n := by
              rw [← hb1, hfull.2]
              simp only [hb, List.length_nil, List.drop_length, defaultBufSize]
              simp only [Writer.Available, defaultBufSize, hb, List.length_nil] at hc
              simp
              omega
            obtain ⟨_, h2⟩ := ih b1 _ hm1 hok
            rw [h2, ← hb1, hfull.2]
            simp [hfull.1, hb]
        · have hstep : Writer.WriteLoop (n + 1) b p =
              Writer.WriteLoop n
                (Writer.Flush { b with buf := b.buf ++ p.take b.Available })
                (p.drop b.Available) := by
            rw [Writer.WriteLoop, if_pos ⟨hc, he'⟩, if_neg hb]
          rw [hstep] at hok ⊢
          generalize hb1 : Writer.Flush { b with buf := b.buf ++ p.take b.Available } = b1
            at hok ⊢
          by_cases he1 : b1.err = true
          · rw [Writer.WriteLoop_of_err _ _ _ he1] at hok
            rw [he1] at hok; cases hok
          · have he1' : b1.err = false := by simpa using he1
            have hf := Writer.Flush_ok { b with buf := b.buf ++ p.take b.Available }
              (by rw [hb1]; exact he1')
            rw [hb1] at hf
            obtain ⟨_, hw, hbuf⟩ := hf
            have hm1 : (p.drop b.Available).length +
                (if defaultBufSize ≤ b1.buf.length then 1 else 0) < n := by
              rw [hbuf]
              simp only [Writer.Available, defaultBufSize, List.length_drop,
                List.length_nil] at hc hm ⊢
              split at hm <;> simp at hm ⊢ <;> omega
            obtain ⟨_, h2⟩ := ih b1 _ hm1 hok
            rw [h2, hw, hbuf]
            simp [List.append_assoc]
      · have hstep : Writer.WriteLoop (n + 1) b p = { b with buf := b.buf ++ p } := by
          rw [Writer.WriteLoop, if_neg (fun h => hc h.1), if_neg he]
        rw [hstep]
        simp [List.append_assoc]

theorem Writer.Write_of_err (b : Writer) (p : List Byte) (h : b.err = true) :
    b.Write p = b :=
  Writer.WriteLoop_of_err _ b p h

theorem Writer.Write_ok (b : Writer) (p : List Byte) (h : (b.Write p).err = false) :
    b.err = false ∧
      (b.Write p).conn.wire ++ (b.Write p).buf = b.conn.wire ++ b.buf ++ p := by
  apply Writer.WriteLoop_ok (p.length + 2) b p _ h
  split <;> omega
/-! ## `Publish` -/

theorem formatInt_natCast (n : Nat) : formatInt (n : Int) = formatNat n := by
  unfold formatInt
  have h : ¬ ((n : Int) < 0) := by omega
  simp [h]

/-- C2: a `Publish` call that returns no error has added to the output stream, after
what was already buffered, the line `PUB <subject> <reply> <size>\r\n` with the decimal
length of the payload, the payload bytes as they are, and `\r\n`; all of it has been
forwarded to the connection and nothing is left in the buffer. -/
theorem Publish_frame (c : Client CB) (subject reply payload : List Byte)
    (h : (c.Publish subject reply payload).2 = none) :
    (c.Publish subject reply payload).1.w.conn.wire =
        c.w.conn.wire ++ c.w.buf ++
          (ascii "PUB " ++ subject ++ ascii " " ++ reply ++ ascii " " ++
            formatNat payload.length ++ ascii "\r\n" ++ payload ++ ascii "\r\n")
      ∧ (c.Publish subject reply payload).1.w.buf = [] := by
  unfold Client.Publish at h ⊢
  simp only [Client.wWriteString, Client.wWrite, Client.wFlush, Client.Lock,
    Client.Unlock] at h ⊢
  generalize hw1 : c.w.WriteString (pubLine subject reply payload.length) = w1 at h ⊢
  generalize hw2 : w1.Write payload = w2 at h ⊢
  generalize hw3 : w2.WriteString (ascii "\r\n") = w3 at h ⊢
  generalize hw4 : w3.Flush = w4 at h ⊢
  by_cases e1 : w1.err = true
  · simp [e1] at h
  by_cases e2 : w2.err = true
  · simp [e1, e2] at h
  by_cases e3 : w3.err = true
  · simp [e1, e2, e3] at h
  by_cases e4 : w4.err = true
  · simp [e1, e2, e3, e4] at h
  simp only [e1, e2, e3, e4, if_false, Bool.false_eq_true]
  have f4 := Writer.Flush_ok w3 (by rw [hw4]; simpa using e4)
  have f3 := Writer.WriteString_ok w2 (ascii "\r\n") (by rw [hw3]; simpa using e3)
  have f2 := Writer.Write_ok w1 payload (by rw [hw2]; simpa using e2)
  have f1 := Writer.WriteString_ok c.w (pubLine subject reply payload.length)
    (by rw [hw1]; simpa using e1)
  rw [hw4] at f4
  rw [hw3] at f3
  rw [hw2] at f2
  rw [hw1] at f1
  refine ⟨?_, f4.2.2⟩
  rw [f4.2.1, f3.2, f2.2, f1.2, pubLine, formatInt_natCast]
  simp only [List.append_assoc]

/-- The frame theorem at `Publish("foo", "", "bar")` on a client just connected. -/
theorem Publish_frame_witness :
    ((fresh "").Publish (ascii "foo") [] (ascii "bar")).2 = none
    ∧ ((fresh "").Publish (ascii "foo") [] (ascii "bar")).1.w.conn.wire =
        (fresh "").w.conn.wire ++ (fresh "").w.buf ++
          (ascii "PUB " ++ ascii "foo" ++ ascii " " ++ [] ++ ascii " " ++
            formatNat (ascii "bar").length ++ ascii "\r\n" ++ ascii "bar" ++ ascii "\r\n") :=
  ⟨by decide, (Publish_frame (fresh "") (ascii "foo") [] (ascii "bar") (by decide)).1⟩
/-! ## `Subscribe` and the id counter -/

theorem addInt_one (n : Nat) (h : n + 1 < 2 ^ 63) : addInt (n : Int) 1 = ((n + 1 : Nat) : Int) := by
  unfold addInt intBits
  have h1 : ((n : Int) + 1 + 2 ^ (64 - 1)) % 2 ^ 64 = (n : Int) + 1 + 2 ^ (64 - 1) := by
    apply Int.emod_eq_of_lt <;> norm_num <;> omega
  rw [h1]
  push_cast
  ring

theorem Publish_sid (c : Client CB) (s r p : List Byte) : (c.Publish s r p).1.sid = c.sid := by
  unfold Client.Publish
  simp only [Client.wWriteString, Client.wWrite, Client.wFlush, Client.Lock, Client.Unlock]
  repeat' split
  all_goals rfl

theorem Flush_sid (c : Client CB) (b : Bool) : (c.Flush b).1.sid = c.sid := by
  unfold Client.Flush
  simp only [Client.wWriteString, Client.wFlush, Client.Lock, Client.Unlock]
  repeat' split
  all_goals rfl

theorem Subscribe_sid (c : Client CB) (s q : List Byte) (cb : CB) :
    (c.Subscribe s q cb).1.sid = addInt c.sid 1 := by
  unfold Client.Subscribe
  simp only [Client.wWriteString, Client.wFlush, Client.Lock, Client.Unlock]
  repeat' split
  all_goals rfl

theorem Publish_err (c : Client CB) (s r p : List Byte)
    (h : (c.Publish s r p).1.w.err = false) : c.w.err = false := by
  by_contra hc
  have he : c.w.err = true := by simpa using hc
  have h1 : (c.Publish s r p).1.w.err = true := by
    unfold Client.Publish
    simp only [Client.wWriteString, Client.wWrite, Client.wFlush, Client.Lock, Client.Unlock,
      Writer.WriteString_of_err _ _ he, he, if_true]
  rw [h1] at h
  cases h

theorem Flush_err (c : Client CB) (b : Bool)
    (h : (c.Flush b).1.w.err = false) : c.w.err = false := by
  by_contra hc
  have he : c.w.err = true := by simpa using hc
  have h1 : (c.Flush b).1.w.err = true := by
    unfold Client.Flush
    simp only [Client.wWriteString, Client.wFlush, Client.Lock, Client.Unlock,
      Writer.WriteString_of_err _ _ he, he, if_true]
  rw [h1] at h
  cases h

theorem Subscribe_err (c : Client CB) (s q : List Byte) (cb : CB)
    (h : (c.Subscribe s q cb).1.w.err = false) :
    c.w.err = false ∧ (c.Subscribe s q cb).2 = none := by
  constructor
  · by_contra hc
    have he : c.w.err = true := by simpa using hc
    have h1 : (c.Subscribe s q cb).1.w.err = true := by
      unfold Client.Subscribe
      simp only [Client.wWriteString, Client.wFlush, Client.Lock, Client.Unlock,
        Writer.WriteString_of_err _ _ he, he, if_true]
    rw [h1] at h
    cases h
  · unfold Client.Subscribe at h ⊢
    simp only [Client.wWriteString, Client.wFlush, Client.Lock, Client.Unlock] at h ⊢
    split
    · rename_i h1
      simp [h1] at h
    · split
      · rename_i h1 h2
        simp [h1, h2] at h
      · rfl
theorem subscribeCalls_le (ks : List (Call CB)) : subscribeCalls ks ≤ ks.length := by
  induction ks with
  | nil => simp [subscribeCalls]
  | cons k ks ih => cases k <;> simp [subscribeCalls] <;> omega

/-- Every `Subscribe` call moves the counter by one, the other calls leave it alone. -/
theorem run_sid (ks : List (Call CB)) : ∀ (c : Client CB) (n : Nat), c.sid = (n : Int) →
    n + subscribeCalls ks < 2 ^ 63 →
    (c.run ks).1.sid = ((n + subscribeCalls ks : Nat) : Int) := by
  induction ks with
  | nil => intro c n h _; simpa [Client.run, subscribeCalls] using h
  | cons k ks ih =>
    intro c n h hb
    cases k with
    | publish s r p =>
      simp only [subscribeCalls] at hb ⊢
      exact ih (c.Publish s r p).1 n (by rw [Publish_sid, h]) hb
    | flush b =>
      simp only [subscribeCalls] at hb ⊢
      exact ih (c.Flush b).1 n (by rw [Flush_sid, h]) hb
    | subscribe s q cb =>
      simp only [subscribeCalls] at hb ⊢
      have h1 : (c.Subscribe s q cb).1.sid = ((n + 1 : Nat) : Int) := by
        rw [Subscribe_sid, h]
        exact addInt_one n (by omega)
      have := ih (c.Subscribe s q cb).1 (n + 1) h1 (by omega)
      simp only [Client.run, Client.call]
      rw [this]
      congr 1
      omega

/-- While the writer has no error, every `Subscribe` call so far has returned nil. -/
theorem run_count (ks : List (Call CB)) : ∀ (c : Client CB),
    (c.run ks).1.w.err = false → c.w.err = false ∧ (c.run ks).2 = subscribeCalls ks := by
  induction ks with
  | nil => intro c h; exact ⟨h, rfl⟩
  | cons k ks ih =>
    intro c h
    cases k with
    | publish s r p =>
      obtain ⟨h1, h2⟩ := ih (c.Publish s r p).1 h
      exact ⟨Publish_err c s r p h1, by simp [Client.run, Client.call, subscribed, subscribeCalls, h2]⟩
    | flush b =>
      obtain ⟨h1, h2⟩ := ih (c.Flush b).1 h
      exact ⟨Flush_err c b h1, by simp [Client.run, Client.call, subscribed, subscribeCalls, h2]⟩
    | subscribe s q cb =>
      obtain ⟨h1, h2⟩ := ih (c.Subscribe s q cb).1 h
      obtain ⟨h3, h4⟩ := Subscribe_err c s q cb h1
      refine ⟨h3, ?_⟩
      simp [Client.run, Client.call, subscribed, subscribeCalls, h2, h4]
      omega

/-- C3: on a client just connected, after any sequence of `Publish`, `Subscribe` and
`Flush` calls (each returning nil or an error), a `Subscribe` call that returns nil and is
the `n`-th to do so has written the line `SUB <subject> <queue> n\r\n` to the connection,
has registered its callback under key `n`, and has left the counter at `n`.  (The
counter is a 64-bit `int`; the sequence is shorter than `2 ^ 63` calls.) -/
theorem Subscribe_nth (input : List Byte) (faults : List (Option Nat))
    (calls : List (Call CB)) (subject queue : List Byte) (cb : CB)
    (hlen : calls.length + 1 < 2 ^ 63)
    (hok : ((((Client.connected input faults : Client CB).run calls).1).Subscribe
              subject queue cb).2 = none) :
    ((((Client.connected input faults : Client CB).run calls).1).Subscribe
        subject queue cb).1.w.conn.wire =
        ((Client.connected input faults : Client CB).run calls).1.w.conn.wire ++
          ((Client.connected input faults : Client CB).run calls).1.w.buf ++
          subLine subject queue
            ((((Client.connected input faults : Client CB).run calls).2 + 1 : Nat) : Int)
      ∧ ((((Client.connected input faults : Client CB).run calls).1).Subscribe
          subject queue cb).1.subs
            ((((Client.connected input faults : Client CB).run calls).2 + 1 : Nat) : Int)
          = some cb
      ∧ ((((Client.connected input faults : Client CB).run calls).1).Subscribe
          subject queue cb).1.sid
          = ((((Client.connected input faults : Client CB).run calls).2 + 1 : Nat) : Int) := by
  generalize hc1 : (Client.connected input faults : Client CB).run calls = r at hok ⊢
  obtain ⟨c1, n⟩ := r
  simp only at hok ⊢
  have hsub := subscribeCalls_le calls
  have hsid : c1.sid = ((subscribeCalls calls : Nat) : Int) := by
    have := run_sid calls (Client.connected input faults : Client CB) 0 rfl (by omega)
    rw [hc1] at this
    simpa using this
  -- the call succeeded, so the writer has no error before or after it
  have hw : (c1.Subscribe subject queue cb).1.w.err = false := by
    unfold Client.Subscribe at hok ⊢
    simp only [Client.wWriteString, Client.wFlush, Client.Lock, Client.Unlock] at hok ⊢
    split
    · rename_i h1; simp [h1] at hok
    · split
      · rename_i h1 h2; simp [h1, h2] at hok
      · rename_i h1 h2; simpa using h2
  have he1 := (Subscribe_err c1 subject queue cb hw).1
  have hn : n = subscribeCalls calls := by
    have := (run_count calls (Client.connected input faults : Client CB)
      (by rw [hc1]; exact he1)).2
    rw [hc1] at this
    exact this
  have hnew : addInt c1.sid 1 = ((n + 1 : Nat) : Int) := by
    rw [hsid, hn]
    exact addInt_one _ (by omega)
  unfold Client.Subscribe at hok hw ⊢
  simp only [Client.wWriteString, Client.wFlush, Client.Lock, Client.Unlock] at hok hw ⊢
  rw [hnew] at hok hw ⊢
  generalize hw1 : c1.w.WriteString (subLine subject queue ((n + 1 : Nat) : Int)) = w1
    at hok hw ⊢
  generalize hw2 : w1.Flush = w2 at hok hw ⊢
  by_cases e1 : w1.err = true
  · simp [e1] at hok
  by_cases e2 : w2.err = true
  · simp [e1, e2] at hok
  simp only [e1, e2, if_false, Bool.false_eq_true]
  have f2 := Writer.Flush_ok w1 (by rw [hw2]; simpa using e2)
  have f1 := Writer.WriteString_ok c1.w _ (by rw [hw1]; simpa using e1)
  rw [hw2] at f2
  rw [hw1] at f1
  refine ⟨?_, ?_, ?_⟩
  · rw [f2.2.1, f1.2]
  · simp [Function.update_same]
  · trivial

set_option maxRecDepth 100000 in
/-- The id theorem on the calls `Publish`, `Subscribe`, `Flush` (timing out), then
`Subscribe`: the second successful `Subscribe` writes `SUB hello  2\r\n`. -/
theorem Subscribe_nth_witness :
    (((fresh "").run [Call.publish (ascii "foo") [] (ascii "bar"),
        Call.subscribe (ascii "foo") [] (), Call.flush false]).1.Subscribe
      (ascii "hello") [] ()).1.sid = 2
    ∧ (((fresh "").run [Call.publish (ascii "foo") [] (ascii "bar"),
        Call.subscribe (ascii "foo") [] (), Call.flush false]).2 + 1 : Nat) = 2 :=
  ⟨(Subscribe_nth [] [] [Call.publish (ascii "foo") [] (ascii "bar"),
      Call.subscribe (ascii "foo") [] (), Call.flush false] (ascii "hello") [] ()
      (by decide) (by decide)).2.2, by decide⟩
/-! ## UTF-8: decoding what was encoded -/

theorem toNat_ofNat_lt (k : Nat) (h : k < 256) : (UInt8.ofNat k).toNat = k := by
  simp [UInt8.toNat, UInt8.ofNat, Fin.ofNat, Nat.mod_eq_of_lt h]

theorem DecodeRune_AppendRune (r : Nat) (h : isScalar r = true) (rest : List Byte) :
    DecodeRune (AppendRune r ++ rest) = (r, (AppendRune r).length) := by
  unfold isScalar at h
  simp only [Bool.or_eq_true, Bool.and_eq_true, decide_eq_true_eq] at h
  unfold AppendRune
  by_cases h1 : r < 0x80
  · have e0 := toNat_ofNat_lt r (by omega)
    simp only [h1, if_true, List.singleton_append, DecodeRune, List.length_singleton, e0]
  · by_cases h2 : r < 0x800
    · have e0 := toNat_ofNat_lt (0xC0 + r / 64) (by omega)
      have e1 := toNat_ofNat_lt (0x80 + r % 64) (by omega)
      have a1 : ¬ (0xC0 + r / 64 < 0x80) := by omega
      have a2 : 0xC2 ≤ 0xC0 + r / 64 ∧ 0xC0 + r / 64 ≤ 0xDF := by omega
      have a3 : 0x80 ≤ 0x80 + r % 64 ∧ 0x80 + r % 64 ≤ 0xBF := by omega
      simp only [h1, h2, if_true, if_false, List.cons_append, List.nil_append, DecodeRune,
        inRange, List.length_cons, List.length_nil, e0, e1, a1, a2, a3, and_self,
        decide_True, Bool.and_self]
      refine Prod.ext ?_ rfl
      show _ = r
      omega
    · have h3 : ¬ (0x10FFFF < r ∨ (0xD800 ≤ r ∧ r ≤ 0xDFFF)) := by omega
      by_cases h4 : r < 0x10000
      · have e0 := toNat_ofNat_lt (0xE0 + r / 4096) (by omega)
        have e1 := toNat_ofNat_lt (0x80 + r / 64 % 64) (by omega)
        have e2 := toNat_ofNat_lt (0x80 + r % 64) (by omega)
        have a1 : ¬ (0xE0 + r / 4096 < 0x80) := by omega
        have a2 : ¬ (0xC2 ≤ 0xE0 + r / 4096 ∧ 0xE0 + r / 4096 ≤ 0xDF) := by omega
        have a3 : 0xE0 ≤ 0xE0 + r / 4096 ∧ 0xE0 + r / 4096 ≤ 0xEF := by omega
        have a4 : (if 0xE0 + r / 4096 = 0xE0 then 0xA0 else 0x80) ≤ 0x80 + r / 64 % 64 := by
          split <;> omega
        have a5 : 0x80 + r / 64 % 64 ≤ (if 0xE0 + r / 4096 = 0xED then 0x9F else 0xBF) := by
          split <;> omega
        have a6 : 0x80 ≤ 0x80 + r % 64 ∧ 0x80 + r % 64 ≤ 0xBF := by omega
        simp only [h1, h2, h3, h4, if_true, if_false, List.cons_append, List.nil_append,
          DecodeRune, inRange, List.length_cons, List.length_nil, e0, e1, e2, a1, a2, a3, a4,
          a5, a6, and_self, decide_True, Bool.and_self]
        refine Prod.ext ?_ rfl
        show _ = r
        omega
      · have e0 := toNat_ofNat_lt (0xF0 + r / 262144) (by omega)
        have e1 := toNat_ofNat_lt (0x80 + r / 4096 % 64) (by omega)
        have e2 := toNat_ofNat_lt (0x80 + r / 64 % 64) (by omega)
        have e3 := toNat_ofNat_lt (0x80 + r % 64) (by omega)
        have a1 : ¬ (0xF0 + r / 262144 < 0x80) := by omega
        have a2 : ¬ (0xC2 ≤ 0xF0 + r / 262144 ∧ 0xF0 + r / 262144 ≤ 0xDF) := by omega
        have a3 : ¬ (0xE0 ≤ 0xF0 + r / 262144 ∧ 0xF0 + r / 262144 ≤ 0xEF) := by omega
        have a3' : 0xF0 ≤ 0xF0 + r / 262144 ∧ 0xF0 + r / 262144 ≤ 0xF4 := by omega
        have a4 : (if 0xF0 + r / 262144 = 0xF0 then 0x90 else 0x80) ≤ 0x80 + r / 4096 % 64 := by
          split <;> omega
        have a5 : 0x80 + r / 4096 % 64 ≤ (if 0xF0 + r / 262144 = 0xF4 then 0x8F else 0xBF) := by
          split <;> omega
        have a6 : 0x80 ≤ 0x80 + r / 64 % 64 ∧ 0x80 + r / 64 % 64 ≤ 0xBF := by omega
        have a7 : 0x80 ≤ 0x80 + r % 64 ∧ 0x80 + r % 64 ≤ 0xBF := by omega
        simp only [h1, h2, h3, h4, if_true, if_false, List.cons_append, List.nil_append,
          DecodeRune, inRange, List.length_cons, List.length_nil, e0, e1, e2, e3, a1, a2, a3,
          a3', a4, a5, a6, a7, and_self, decide_True, Bool.and_self]
        refine Prod.ext ?_ rfl
        show _ = r
        omega

theorem AppendRune_ne_nil (r : Nat) : AppendRune r ≠ [] := by
  unfold AppendRune
  repeat' split
  all_goals simp

theorem DecodeRune_width_pos (b : Byte) (bs : List Byte) : 1 ≤ (DecodeRune (b :: bs)).2 := by
  rcases bs with _ | ⟨b1, _ | ⟨b2, _ | ⟨b3, t⟩⟩⟩ <;> simp only [DecodeRune] <;>
    split_ifs <;> simp

theorem decodeRunesAux_nil (fuel : Nat) : decodeRunesAux fuel [] = [] := by
  cases fuel <;> rfl

theorem decodeRunesAux_fuel (n : Nat) : ∀ (s : List Byte) (fuel : Nat),
    s.length ≤ n → n ≤ fuel → decodeRunesAux fuel s = decodeRunesAux n s := by
  induction n with
  | zero =>
    intro s fuel hs _
    have : s = [] := List.length_eq_zero.mp (by omega)
    subst this
    rw [decodeRunesAux_nil, decodeRunesAux_nil]
  | succ n ih =>
    intro s fuel hs hf
    cases s with
    | nil => rw [decodeRunesAux_nil, decodeRunesAux_nil]
    | cons b bs =>
      obtain ⟨f, rfl⟩ : ∃ f, fuel = f + 1 := ⟨fuel - 1, by omega⟩
      simp only [decodeRunesAux]
      have hw := DecodeRune_width_pos b bs
      have hl : ((b :: bs).drop (DecodeRune (b :: bs)).2).length ≤ n := by
        simp only [List.length_drop, List.length_cons] at hs ⊢
        omega
      rw [ih _ f hl (by omega)]

theorem decodeRunesAux_cons (fuel : Nat) (b : Byte) (bs : List Byte) :
    decodeRunesAux (fuel + 1) (b :: bs) =
      ((DecodeRune (b :: bs)).1, (b :: bs).take (DecodeRune (b :: bs)).2) ::
        decodeRunesAux fuel ((b :: bs).drop (DecodeRune (b :: bs)).2) := rfl

theorem decodeRunes_AppendRune (r : Nat) (h : isScalar r = true) (rest : List Byte) :
    decodeRunes (AppendRune r ++ rest) = (r, AppendRune r) :: decodeRunes rest := by
  have hd := DecodeRune_AppendRune r h rest
  cases hA : AppendRune r with
  | nil => exact absurd hA (AppendRune_ne_nil r)
  | cons b t =>
    rw [hA] at hd
    have hs : (b :: t) ++ rest = b :: (t ++ rest) := rfl
    rw [hs] at hd ⊢
    unfold decodeRunes
    rw [List.length_cons, decodeRunesAux_cons, hd]
    have h1 : (b :: (t ++ rest)).take (b :: t).length = b :: t := by
      simp [List.take_append_eq_append_take]
    have h2 : (b :: (t ++ rest)).drop (b :: t).length = rest := by
      simp
    simp only [h1, h2]
    congr 1
    exact decodeRunesAux_fuel rest.length rest _ (le_refl _) (by simp)

theorem utf8_append (a b : List Nat) : utf8 (a ++ b) = utf8 a ++ utf8 b := by
  simp [utf8]

theorem utf8_cons (r : Nat) (rs : List Nat) : utf8 (r :: rs) = AppendRune r ++ utf8 rs := by
  simp [utf8]

/-- The scanner reads back the code points of UTF-8 text. -/
theorem decodeRunes_utf8 (rs : List Nat) (h : ∀ r ∈ rs, isScalar r = true)
    (rest : List Byte) :
    (decodeRunes (utf8 rs ++ rest)).map (fun p => p.1)
      = rs ++ (decodeRunes rest).map (fun p => p.1) := by
  induction rs with
  | nil => simp [utf8]
  | cons r rs ih =>
    rw [utf8_cons, List.append_assoc,
      decodeRunes_AppendRune r (h r (List.mem_cons_self _ _))]
    simp only [List.map_cons, List.cons_append]
    rw [ih (fun x hx => h x (List.mem_cons_of_mem _ hx))]

/-! ## Decimal text -/

theorem isDigit_iff (d : Nat) : isDigit d = true ↔ 0x30 ≤ d ∧ d ≤ 0x39 := by
  simp [isDigit]

theorem digitsValue_append (a : List Nat) (d : Nat) :
    digitsValue (a ++ [d]) = digitsValue a * 10 + (d - 0x30) := by
  simp [digitsValue, List.foldl_append]

theorem AppendRune_ascii (r : Nat) (h : r < 0x80) : AppendRune r = [UInt8.ofNat r] := by
  simp [AppendRune, h]

/-- The digits `natDigits` puts before `acc`: a non-empty run of digit characters whose
value is the number printed. -/
theorem natDigits_spec (fuel : Nat) : ∀ (n : Nat) (acc : List Nat), n < fuel →
    ∃ L : List Nat, natDigits fuel n (utf8 acc) = utf8 (L ++ acc) ∧ L ≠ [] ∧
      (∀ d ∈ L, isDigit d = true) ∧ digitsValue L = n := by
  induction fuel with
  | zero => intro n acc h; omega
  | succ f ih =>
    intro n acc hn
    have hd : isDigit (0x30 + n % 10) = true := by
      rw [isDigit_iff]; omega
    have hcons : UInt8.ofNat (0x30 + n % 10) :: utf8 acc = utf8 ((0x30 + n % 10) :: acc) := by
      rw [utf8_cons, AppendRune_ascii _ (by omega)]; rfl
    by_cases h0 : n / 10 = 0
    · refine ⟨[0x30 + n % 10], ?_, by simp, ?_, ?_⟩
      · simp only [natDigits, h0, if_true]
        rw [hcons]; rfl
      · intro d hd'
        simp only [List.mem_singleton] at hd'
        rw [hd']; exact hd
      · simp [digitsValue]; omega
    · obtain ⟨L, h1, h2, h3, h4⟩ := ih (n / 10) ((0x30 + n % 10) :: acc) (by omega)
      refine ⟨L ++ [0x30 + n % 10], ?_, by simp, ?_, ?_⟩
      · simp only [natDigits, h0, if_false]
        rw [hcons, h1]
        simp
      · intro d hd'
        rcases List.mem_append.mp hd' with hm | hm
        · exact h3 d hm
        · simp only [List.mem_singleton] at hm
          rw [hm]; exact hd
      · rw [digitsValue_append, h4]; omega

theorem formatNat_spec (n : Nat) :
    ∃ L : List Nat, formatNat n = utf8 L ∧ L ≠ [] ∧
      (∀ d ∈ L, isDigit d = true) ∧ digitsValue L = n := by
  obtain ⟨L, h1, h2, h3, h4⟩ := natDigits_spec (n + 1) n [] (by omega)
  refine ⟨L, ?_, h2, h3, h4⟩
  have : utf8 [] = ([] : List Byte) := rfl
  rw [this] at h1
  simpa [formatNat] using h1

/-! ## Bytes of a token: no newline and no space -/

theorem ofNat_ne_of_lt (k m : Nat) (hk : k < 256) (hm : m < 256) (h : k ≠ m) :
    UInt8.ofNat k ≠ UInt8.ofNat m := by
  intro he
  have := congrArg UInt8.toNat he
  rw [toNat_ofNat_lt k hk, toNat_ofNat_lt m hm] at this
  exact h this

theorem isSpace_false (r : Nat) (h : isSpace r = false) :
    (r < 0x09 ∨ 0x0D < r) ∧ r ≠ 0x20 ∧ r ≠ 0x85 ∧ r ≠ 0xA0 := by
  unfold isSpace at h
  simp only [Bool.or_eq_false_iff, Bool.and_eq_false_iff, decide_eq_false_iff_not] at h
  omega

theorem AppendRune_bytes (r : Nat) (hs : isSpace r = false) :
    ∀ b ∈ AppendRune r, b ≠ 0x0A ∧ b ≠ 0x20 := by
  have hsp := isSpace_false r hs
  have e10 : (0x0A : UInt8) = UInt8.ofNat 0x0A := rfl
  have e20 : (0x20 : UInt8) = UInt8.ofNat 0x20 := rfl
  have key : ∀ k : Nat, k < 256 → k ≠ 0x0A → k ≠ 0x20 →
      UInt8.ofNat k ≠ 0x0A ∧ UInt8.ofNat k ≠ 0x20 := by
    intro k hk h1 h2
    rw [e10, e20]
    exact ⟨ofNat_ne_of_lt k _ hk (by omega) h1, ofNat_ne_of_lt k _ hk (by omega) h2⟩
  unfold AppendRune
  intro b hb
  split at hb
  · simp only [List.mem_singleton] at hb
    rw [hb]; exact key r (by omega) (by omega) (by omega)
  · split at hb
    · simp only [List.mem_cons, List.mem_singleton, List.not_mem_nil, or_false] at hb
      rcases hb with hb | hb <;> rw [hb] <;> apply key <;> omega
    · split at hb
      · simp only [List.mem_cons, List.mem_singleton, List.not_mem_nil, or_false] at hb
        rcases hb with hb | hb | hb <;> rw [hb] <;> decide
      · split at hb
        · simp only [List.mem_cons, List.mem_singleton, List.not_mem_nil, or_false] at hb
          rcases hb with hb | hb | hb <;> rw [hb] <;> apply key <;> omega
        · simp only [List.mem_cons, List.mem_singleton, List.not_mem_nil, or_false] at hb
          rcases hb with hb | hb | hb | hb <;> rw [hb] <;> apply key <;> omega

theorem utf8_bytes (rs : List Nat) (h : ∀ r ∈ rs, isSpace r = false) :
    ∀ b ∈ utf8 rs, b ≠ 0x0A ∧ b ≠ 0x20 := by
  intro b hb
  simp only [utf8, List.mem_flatten, List.mem_map] at hb
  obtain ⟨l, ⟨r, hr, rfl⟩, hbl⟩ := hb
  exact AppendRune_bytes r (h r hr) b hbl

/-! ## The `strings` and reader functions on a line built from tokens -/

theorem ReadString_line (l tail : List Byte) (h : ∀ b ∈ l, b ≠ 0x0A) :
    ReadString (l ++ 0x0A :: tail) = some (l ++ [0x0A], tail) := by
  induction l with
  | nil => simp [ReadString]
  | cons b bs ih =>
    have hb : b ≠ 0x0A := h b (List.mem_cons_self _ _)
    have ih' := ih (fun x hx => h x (List.mem_cons_of_mem _ hx))
    show ReadString (b :: (bs ++ 0x0A :: tail)) = some (b :: (bs ++ [0x0A]), tail)
    rw [ReadString, if_neg hb, ih']

theorem Count_append (a b : List Byte) : Count (a ++ b) = Count a + Count b := by
  simp [Count]

theorem Count_eq_zero (l : List Byte) (h : ∀ b ∈ l, b ≠ 0x20) : Count l = 0 := by
  simp only [Count, List.length_eq_zero, List.filter_eq_nil_iff, decide_eq_true_eq]
  exact h

theorem ReadFull_append (payload rest : List Byte) :
    ReadFull (payload ++ rest) payload.length = some (payload, rest) := by
  simp [ReadFull]

/-! ## The scanner on a line built from tokens -/

theorem isSpace_newline_ne (r : Nat) (h : isSpace r = false) : r ≠ 0x0A := by
  have := isSpace_false r h
  omega

theorem SkipSpace_token (r : Nat) (rs : List Nat) (h : isSpace r = false) :
    SkipSpace (r :: rs) = some (r :: rs) := by
  simp [SkipSpace, h, isSpace_newline_ne r h]

theorem takeWhile_stop (p : Nat → Bool) (L : List Nat) (x : Nat) (t : List Nat)
    (hL : ∀ d ∈ L, p d = true) (hx : p x = false) :
    (L ++ x :: t).takeWhile p = L ∧ (L ++ x :: t).dropWhile p = x :: t := by
  induction L with
  | nil => simp [List.takeWhile, List.dropWhile, hx]
  | cons d ds ih =>
    have hd := hL d (List.mem_cons_self _ _)
    have := ih (fun y hy => hL y (List.mem_cons_of_mem _ hy))
    simp [List.takeWhile, List.dropWhile, hd, this]

theorem convertString_token (S : List Nat) (t : List Nat) (hS : isToken S) :
    convertString (S ++ 0x20 :: t) = some (utf8 S, 0x20 :: t) := by
  obtain ⟨hne, hall⟩ := hS
  cases S with
  | nil => exact absurd rfl hne
  | cons r rs =>
    have hr := (hall r (List.mem_cons_self _ _)).2
    have hsk : SkipSpace ((r :: rs) ++ 0x20 :: t) = some ((r :: rs) ++ 0x20 :: t) :=
      SkipSpace_token r _ hr
    have htw := takeWhile_stop (fun c => !isSpace c) (r :: rs) 0x20 t
      (fun d hd => by simp [(hall d hd).2]) (by decide)
    unfold convertString
    rw [hsk]
    show some ((((r :: (rs ++ 0x20 :: t)).takeWhile (fun c => !isSpace c)).map AppendRune).flatten,
      (r :: (rs ++ 0x20 :: t)).dropWhile (fun c => !isSpace c)) = _
    have e : r :: (rs ++ 0x20 :: t) = (r :: rs) ++ 0x20 :: t := rfl
    rw [e, htw.1, htw.2]
    rfl

theorem advanceSpace_space (x : Nat) (t : List Nat) (hx : isSpace x = false) :
    advanceSpace (0x20 :: x :: t) = some (x :: t) := by
  have h20 : isSpace 0x20 = true := by decide
  simp [advanceSpace, h20, List.dropWhile, hx]

theorem isDigit_not_space (d : Nat) (h : isDigit d = true) :
    isSpace d = false ∧ isScalar d = true ∧ d ≠ 0x2B ∧ d ≠ 0x2D := by
  rw [isDigit_iff] at h
  refine ⟨?_, ?_, by omega, by omega⟩
  · unfold isSpace
    simp only [Bool.or_eq_false_iff, Bool.and_eq_false_iff, decide_eq_false_iff_not]
    omega
  · unfold isScalar
    simp only [Bool.or_eq_true, decide_eq_true_eq]
    omega

theorem scanInt_digits (L : List Nat) (x : Nat) (t : List Nat) (hne : L ≠ [])
    (hL : ∀ d ∈ L, isDigit d = true) (hx : isDigit x = false)
    (hv : digitsValue L < 2 ^ 63) :
    scanInt (L ++ x :: t) = some ((digitsValue L : Int), x :: t) := by
  cases L with
  | nil => exact absurd rfl hne
  | cons r rs =>
    have hr := isDigit_not_space r (hL r (List.mem_cons_self _ _))
    have hsk : SkipSpace ((r :: rs) ++ x :: t) = some ((r :: rs) ++ x :: t) :=
      SkipSpace_token r _ hr.1
    have htw := takeWhile_stop isDigit (r :: rs) x t hL hx
    have e : r :: (rs ++ x :: t) = (r :: rs) ++ x :: t := rfl
    unfold scanInt
    rw [hsk]
    show (let neg := decide (r = 0x2D)
          let body := if r = 0x2B ∨ r = 0x2D then rs ++ x :: t else r :: (rs ++ x :: t)
          let ds := body.takeWhile isDigit
          let rest := body.dropWhile isDigit
          if ds = [] then none
          else
            let v := digitsValue ds
            if neg then (if v ≤ 2 ^ (intBits - 1) then some (-(v : Int), rest) else none)
            else (if v < 2 ^ (intBits - 1) then some ((v : Int), rest) else none)) = _
    have h43 : ¬ (r = 0x2B) := hr.2.2.1
    have h45 : ¬ (r = 0x2D) := hr.2.2.2
    have hv' : digitsValue (r :: rs) < 9223372036854775808 := by
      norm_num at hv; exact hv
    simp only [h43, h45, or_self, if_false, e, htw.1, htw.2, decide_False, intBits]
    simp [hv']

theorem scanInt_minus (L : List Nat) (x : Nat) (t : List Nat) (hne : L ≠ [])
    (hL : ∀ d ∈ L, isDigit d = true) (hx : isDigit x = false)
    (hv : digitsValue L ≤ 2 ^ 63) :
    scanInt (0x2D :: (L ++ x :: t)) = some (-(digitsValue L : Int), x :: t) := by
  have hsk : SkipSpace (0x2D :: (L ++ x :: t)) = some (0x2D :: (L ++ x :: t)) :=
    SkipSpace_token _ _ (by decide)
  have htw := takeWhile_stop isDigit L x t hL hx
  unfold scanInt
  rw [hsk]
  have hv' : digitsValue L ≤ 9223372036854775808 := by
    norm_num at hv; exact hv
  simp only [true_or, or_true, if_true, htw.1, htw.2, decide_True, intBits, hne, if_false]
  simp [hv']

theorem formatNat_scansAs (n : Nat) (h : n < 2 ^ 63) :
    ∃ N : List Nat, formatNat n = utf8 N ∧ scansAs N (n : Int) := by
  obtain ⟨L, h1, h2, h3, h4⟩ := formatNat_spec n
  refine ⟨L, h1, h2, fun r hr => ⟨(isDigit_not_space r (h3 r hr)).1,
    (isDigit_not_space r (h3 r hr)).2.1⟩, ?_⟩
  intro x t hx
  have := scanInt_digits L x t h2 h3 hx (by rw [h4]; exact h)
  rw [h4] at this
  exact this

theorem formatInt_scansAs (v : Int) (hlo : -(2 ^ 63) ≤ v) (hhi : v < 2 ^ 63) :
    ∃ I : List Nat, formatInt v = utf8 I ∧ scansAs I v := by
  by_cases hneg : v < 0
  · obtain ⟨L, h1, h2, h3, h4⟩ := formatNat_spec v.natAbs
    refine ⟨0x2D :: L, ?_, by simp, ?_, ?_⟩
    · unfold formatInt
      rw [if_pos hneg, h1, utf8_cons, AppendRune_ascii _ (by norm_num)]
      rfl
    · intro r hr
      rcases List.mem_cons.mp hr with hr | hr
      · rw [hr]; exact ⟨by decide, by decide⟩
      · exact ⟨(isDigit_not_space r (h3 r hr)).1, (isDigit_not_space r (h3 r hr)).2.1⟩
    · intro x t hx
      have hv : digitsValue L ≤ 2 ^ 63 := by rw [h4]; omega
      have := scanInt_minus L x t h2 h3 hx hv
      rw [h4] at this
      have e : -((v.natAbs : Nat) : Int) = v := by omega
      rw [e] at this
      exact this
  · have hv : v = ((v.natAbs : Nat) : Int) := by omega
    obtain ⟨N, h1, h2⟩ := formatNat_scansAs v.natAbs (by omega)
    refine ⟨N, ?_, ?_⟩
    · unfold formatInt
      rw [if_neg hneg, h1]
    · rw [hv]; exact h2

theorem scansAs_head (I : List Nat) (v : Int) (h : scansAs I v) (t : List Nat) :
    ∃ r rs, I ++ t = r :: rs ∧ isSpace r = false := by
  obtain ⟨hne, hall, _⟩ := h
  cases I with
  | nil => exact absurd rfl hne
  | cons r rs => exact ⟨r, rs ++ t, rfl, (hall r (List.mem_cons_self _ _)).1⟩

theorem doScanf_verbS (fmt : List Directive) (S t : List Nat) (hS : isToken S) :
    doScanf (Directive.verbS :: fmt) (S ++ 0x20 :: t) =
      (doScanf fmt (0x20 :: t)).map (fun as => Arg.str (utf8 S) :: as) := by
  obtain ⟨r, rs, he, hr⟩ : ∃ r rs, S ++ 0x20 :: t = r :: rs ∧ isSpace r = false := by
    obtain ⟨hne, hall⟩ := hS
    cases S with
    | nil => exact absurd rfl hne
    | cons r rs => exact ⟨r, rs ++ 0x20 :: t, rfl, (hall r (List.mem_cons_self _ _)).2⟩
  have hsk : SkipSpace (S ++ 0x20 :: t) = some (S ++ 0x20 :: t) := by
    rw [he]; exact SkipSpace_token r rs hr
  rw [doScanf, hsk]
  simp only [convertString_token S t hS]

theorem doScanf_verbD (fmt : List Directive) (I : List Nat) (v : Int) (x : Nat)
    (t : List Nat) (hI : scansAs I v) (hx : isDigit x = false) :
    doScanf (Directive.verbD :: fmt) (I ++ x :: t) =
      (doScanf fmt (x :: t)).map (fun as => Arg.int v :: as) := by
  obtain ⟨r, rs, he, hr⟩ := scansAs_head I v hI (x :: t)
  have hsk : SkipSpace (I ++ x :: t) = some (I ++ x :: t) := by
    rw [he]; exact SkipSpace_token r rs hr
  rw [doScanf, hsk]
  simp only [hI.2.2 x t hx]

theorem doScanf_space (fmt : List Directive) (I : List Nat) (v : Int) (t : List Nat)
    (hI : scansAs I v) :
    doScanf (Directive.space :: fmt) (0x20 :: (I ++ t)) = doScanf fmt (I ++ t) := by
  obtain ⟨r, rs, he, hr⟩ := scansAs_head I v hI t
  rw [doScanf, he, advanceSpace_space r rs hr]

theorem doScanf_space_token (fmt : List Directive) (S t : List Nat) (hS : isToken S) :
    doScanf (Directive.space :: fmt) (0x20 :: (S ++ t)) = doScanf fmt (S ++ t) := by
  obtain ⟨hne, hall⟩ := hS
  cases S with
  | nil => exact absurd rfl hne
  | cons r rs =>
    have hr := (hall r (List.mem_cons_self _ _)).2
    show doScanf (Directive.space :: fmt) (0x20 :: r :: (rs ++ t)) = _
    rw [doScanf, advanceSpace_space r _ hr]
    rfl

/-- `Sscanf` with `"%s %d %d"` on `<subject> <sid> <len>\r\n`. -/
theorem doScanf_noReply (S I N : List Nat) (sid len : Int) (hS : isToken S)
    (hI : scansAs I sid) (hN : scansAs N len) :
    doScanf fmtNoReply (S ++ 0x20 :: (I ++ 0x20 :: (N ++ [0x0D, 0x0A]))) =
      some [Arg.str (utf8 S), Arg.int sid, Arg.int len] := by
  unfold fmtNoReply
  rw [doScanf_verbS _ S _ hS, doScanf_space _ I sid _ hI,
    doScanf_verbD _ I sid 0x20 _ hI (by decide), doScanf_space _ N len _ hN,
    doScanf_verbD _ N len 0x0D _ hN (by decide)]
  rfl

/-- `Sscanf` with `"%s %d %s %d"` on `<subject> <sid> <reply> <len>\r\n`. -/
theorem doScanf_reply (S I R N : List Nat) (sid len : Int) (hS : isToken S)
    (hI : scansAs I sid) (hR : isToken R) (hN : scansAs N len) :
    doScanf fmtReply (S ++ 0x20 :: (I ++ 0x20 :: (R ++ 0x20 :: (N ++ [0x0D, 0x0A])))) =
      some [Arg.str (utf8 S), Arg.int sid, Arg.str (utf8 R), Arg.int len] := by
  unfold fmtReply
  rw [doScanf_verbS _ S _ hS, doScanf_space _ I sid _ hI,
    doScanf_verbD _ I sid 0x20 _ hI (by decide), doScanf_space_token _ R _ hR,
    doScanf_verbS _ R _ hR, doScanf_space _ N len _ hN,
    doScanf_verbD _ N len 0x0D _ hN (by decide)]
  rfl

/-! ## Decoding a `MSG` frame -/

theorem SplitN2_MSG (X : List Byte) : SplitN2 (ascii "MSG " ++ X) = [ascii "MSG", X] := rfl

theorem TrimSpace_MSG : TrimSpace (ascii "MSG") = ascii "MSG" := by decide

theorem utf8_space : ascii " " = utf8 [0x20] := by decide

theorem utf8_crlf : ascii "\r\n" = utf8 [0x0D, 0x0A] := by decide

theorem Sscanf_utf8 (fmt : List Directive) (rs : List Nat)
    (h : ∀ r ∈ rs, isScalar r = true) : Sscanf (utf8 rs) fmt = doScanf fmt rs := by
  have := decodeRunes_utf8 rs h []
  rw [List.append_nil] at this
  unfold Sscanf
  rw [this]
  simp [decodeRunes, decodeRunesAux]

theorem maxAlloc_lt : maxAlloc < 2 ^ 63 := by
  unfold maxAlloc; norm_num

theorem makeslice_ok (n : Nat) (h : n ≤ maxAlloc) : makeslice (n : Int) = some n := by
  unfold makeslice
  have h1 : ¬ ((n : Int) < 0 ∨ (maxAlloc : Int) < (n : Int)) := by omega
  rw [if_neg h1, Int.toNat_ofNat]

theorem makeslice_over (n : Nat) (h : maxAlloc < n) : makeslice (n : Int) = none := by
  unfold makeslice
  have h1 : (n : Int) < 0 ∨ (maxAlloc : Int) < (n : Int) := Or.inr (by omega)
  rw [if_pos h1]

/-- One iteration of the read loop on a `MSG` line whose arguments are `a1`, once the
line has been read and its arguments scanned: what is left is to make the slice, to fill
it and to call `processMsg`. -/
theorem parserLoopBody_msg (c : Client CB) (a1 tail : List Byte)
    (subject reply : List Byte) (sid size : Int)
    (hread : ReadString c.r = some (ascii "MSG " ++ a1, tail))
    (hscan : (Count a1 = 2 ∧ reply = [] ∧
                Sscanf a1 fmtNoReply = some [Arg.str subject, Arg.int sid, Arg.int size]) ∨
             (Count a1 = 3 ∧
                Sscanf a1 fmtReply =
                  some [Arg.str subject, Arg.int sid, Arg.str reply, Arg.int size])) :
    c.parserLoopBody =
      match makeslice size with
      | none => Step.halt { c with r := tail } Halt.panicMakeslice
      | some n =>
        match ReadFull tail n with
        | none => Step.halt { c with r := tail } Halt.fatalGather
        | some (payload, rest1) =>
          Step.next (Client.processMsg { c with r := rest1 } subject reply sid payload) := by
  unfold Client.parserLoopBody
  rw [hread]
  simp only [SplitN2_MSG, TrimSpace_MSG, if_true, List.head?_cons]
  rcases hscan with ⟨hc, hr, hs⟩ | ⟨hc, hs⟩
  · subst hr
    simp only [hc, hs, if_true]
  · simp only [hc, hs, if_true, if_false]
    have h31 : ¬ (3 + 1 = 3) := by decide
    rw [if_neg h31]

theorem scansAs_bytes (I : List Nat) (v : Int) (h : scansAs I v) :
    (∀ b ∈ utf8 I, b ≠ 0x0A ∧ b ≠ 0x20) ∧ ∀ r ∈ I, isScalar r = true :=
  ⟨utf8_bytes I (fun r hr => (h.2.1 r hr).1), fun r hr => (h.2.1 r hr).2⟩

theorem isToken_bytes (S : List Nat) (h : isToken S) :
    (∀ b ∈ utf8 S, b ≠ 0x0A ∧ b ≠ 0x20) ∧ ∀ r ∈ S, isScalar r = true :=
  ⟨utf8_bytes S (fun r hr => (h.2 r hr).2), fun r hr => (h.2 r hr).1⟩

/-- The read loop on a frame without reply, the two numbers given by their digits. -/
theorem msg_step_noReply (c : Client CB) (S I N : List Nat) (sid : Int)
    (payload rest : List Byte) (hS : isToken S) (hI : scansAs I sid)
    (hN : scansAs N (payload.length : Int)) :
    Client.parserLoopBody
        { c with r := ascii "MSG " ++ (utf8 S ++ (ascii " " ++ (utf8 I ++ (ascii " " ++
            (utf8 N ++ (ascii "\r\n" ++ (payload ++ (ascii "\r\n" ++ rest)))))))) } =
      match makeslice (payload.length : Int) with
      | none => Step.halt { c with r := payload ++ (ascii "\r\n" ++ rest) } Halt.panicMakeslice
      | some n =>
        match ReadFull (payload ++ (ascii "\r\n" ++ rest)) n with
        | none => Step.halt { c with r := payload ++ (ascii "\r\n" ++ rest) } Halt.fatalGather
        | some (p, rest1) =>
          Step.next (Client.processMsg { c with r := rest1 } (utf8 S) [] sid p) := by
  have hcrlf : ascii "\r\n" = [0x0D, 0x0A] := by decide
  have bS := isToken_bytes S hS
  have bI := scansAs_bytes I sid hI
  have bN := scansAs_bytes N _ hN
  have hmsg : ∀ b ∈ ascii "MSG ", b ≠ (0x0A : Byte) := by decide
  have hsp : ∀ b ∈ ascii " ", b ≠ (0x0A : Byte) := by decide
  have h := parserLoopBody_msg
    { c with r := ascii "MSG " ++ (utf8 S ++ (ascii " " ++ (utf8 I ++ (ascii " " ++
        (utf8 N ++ (ascii "\r\n" ++ (payload ++ (ascii "\r\n" ++ rest)))))))) }
    (utf8 S ++ (ascii " " ++ (utf8 I ++ (ascii " " ++ (utf8 N ++ ascii "\r\n")))))
    (payload ++ (ascii "\r\n" ++ rest))
    (utf8 S) [] sid payload.length ?_ ?_
  · exact h
  · -- the line read is the header
    have hl : ∀ b ∈ ascii "MSG " ++ (utf8 S ++ (ascii " " ++ (utf8 I ++ (ascii " " ++
        (utf8 N ++ [0x0D]))))), b ≠ (0x0A : Byte) := by
      intro b hb
      simp only [List.mem_append, List.mem_singleton] at hb
      rcases hb with hb | hb | hb | hb | hb | hb | hb
      · exact hmsg b hb
      · exact (bS.1 b hb).1
      · exact hsp b hb
      · exact (bI.1 b hb).1
      · exact hsp b hb
      · exact (bN.1 b hb).1
      · rw [hb]; decide
    have := ReadString_line _ (payload ++ (ascii "\r\n" ++ rest)) hl
    simp only [hcrlf, List.append_assoc, List.cons_append, List.nil_append] at this ⊢
    exact this
  · left
    refine ⟨?_, rfl, ?_⟩
    · simp only [Count_append, Count_eq_zero _ (fun b hb => (bS.1 b hb).2),
        Count_eq_zero _ (fun b hb => (bI.1 b hb).2),
        Count_eq_zero _ (fun b hb => (bN.1 b hb).2)]
      decide
    · have e : utf8 S ++ (ascii " " ++ (utf8 I ++ (ascii " " ++ (utf8 N ++ ascii "\r\n"))))
          = utf8 (S ++ 0x20 :: (I ++ 0x20 :: (N ++ [0x0D, 0x0A]))) := by
        rw [utf8_space, utf8_crlf]
        simp only [← utf8_append]
        rfl
      rw [e, Sscanf_utf8, doScanf_noReply S I N sid _ hS hI hN]
      intro r hr
      simp only [List.mem_append, List.mem_cons, List.mem_singleton, List.not_mem_nil,
        or_false] at hr
      rcases hr with hr | hr | hr | hr | hr | hr | hr
      · exact bS.2 r hr
      · rw [hr]; decide
      · exact bI.2 r hr
      · rw [hr]; decide
      · exact bN.2 r hr
      · rw [hr]; decide
      · rw [hr]; decide

/-- The read loop on a frame with a reply token, the two numbers given by their digits. -/
theorem msg_step_reply (c : Client CB) (S I R N : List Nat) (sid : Int)
    (payload rest : List Byte) (hS : isToken S) (hI : scansAs I sid) (hR : isToken R)
    (hN : scansAs N (payload.length : Int)) :
    Client.parserLoopBody
        { c with r := ascii "MSG " ++ (utf8 S ++ (ascii " " ++ (utf8 I ++ (ascii " " ++
            (utf8 R ++ (ascii " " ++ (utf8 N ++ (ascii "\r\n" ++ (payload ++
              (ascii "\r\n" ++ rest)))))))))) } =
      match makeslice (payload.length : Int) with
      | none => Step.halt { c with r := payload ++ (ascii "\r\n" ++ rest) } Halt.panicMakeslice
      | some n =>
        match ReadFull (payload ++ (ascii "\r\n" ++ rest)) n with
        | none => Step.halt { c with r := payload ++ (ascii "\r\n" ++ rest) } Halt.fatalGather
        | some (p, rest1) =>
          Step.next (Client.processMsg { c with r := rest1 } (utf8 S) (utf8 R) sid p) := by
  have hcrlf : ascii "\r\n" = [0x0D, 0x0A] := by decide
  have bS := isToken_bytes S hS
  have bI := scansAs_bytes I sid hI
  have bR := isToken_bytes R hR
  have bN := scansAs_bytes N _ hN
  have hmsg : ∀ b ∈ ascii "MSG ", b ≠ (0x0A : Byte) := by decide
  have hsp : ∀ b ∈ ascii " ", b ≠ (0x0A : Byte) := by decide
  have h := parserLoopBody_msg
    { c with r := ascii "MSG " ++ (utf8 S ++ (ascii " " ++ (utf8 I ++ (ascii " " ++
        (utf8 R ++ (ascii " " ++ (utf8 N ++ (ascii "\r\n" ++ (payload ++
          (ascii "\r\n" ++ rest)))))))))) }
    (utf8 S ++ (ascii " " ++ (utf8 I ++ (ascii " " ++ (utf8 R ++ (ascii " " ++
      (utf8 N ++ ascii "\r\n")))))))
    (payload ++ (ascii "\r\n" ++ rest))
    (utf8 S) (utf8 R) sid payload.length ?_ ?_
  · exact h
  · have hl : ∀ b ∈ ascii "MSG " ++ (utf8 S ++ (ascii " " ++ (utf8 I ++ (ascii " " ++
        (utf8 R ++ (ascii " " ++ (utf8 N ++ [0x0D]))))))), b ≠ (0x0A : Byte) := by
      intro b hb
      simp only [List.mem_append, List.mem_singleton] at hb
      rcases hb with hb | hb | hb | hb | hb | hb | hb | hb | hb
      · exact hmsg b hb
      · exact (bS.1 b hb).1
      · exact hsp b hb
      · exact (bI.1 b hb).1
      · exact hsp b hb
      · exact (bR.1 b hb).1
      · exact hsp b hb
      · exact (bN.1 b hb).1
      · rw [hb]; decide
    have := ReadString_line _ (payload ++ (ascii "\r\n" ++ rest)) hl
    simp only [hcrlf, List.append_assoc, List.cons_append, List.nil_append] at this ⊢
    exact this
  · right
    refine ⟨?_, ?_⟩
    · simp only [Count_append, Count_eq_zero _ (fun b hb => (bS.1 b hb).2),
        Count_eq_zero _ (fun b hb => (bI.1 b hb).2),
        Count_eq_zero _ (fun b hb => (bR.1 b hb).2),
        Count_eq_zero _ (fun b hb => (bN.1 b hb).2)]
      decide
    · have e : utf8 S ++ (ascii " " ++ (utf8 I ++ (ascii " " ++ (utf8 R ++ (ascii " " ++
          (utf8 N ++ ascii "\r\n"))))))
          = utf8 (S ++ 0x20 :: (I ++ 0x20 :: (R ++ 0x20 :: (N ++ [0x0D, 0x0A])))) := by
        rw [utf8_space, utf8_crlf]
        simp only [← utf8_append]
        rfl
      rw [e, Sscanf_utf8, doScanf_reply S I R N sid _ hS hI hR hN]
      intro r hr
      simp only [List.mem_append, List.mem_cons, List.mem_singleton, List.not_mem_nil,
        or_false] at hr
      rcases hr with hr | hr | hr | hr | hr | hr | hr | hr | hr
      · exact bS.2 r hr
      · rw [hr]; decide
      · exact bI.2 r hr
      · rw [hr]; decide
      · exact bR.2 r hr
      · rw [hr]; decide
      · exact bN.2 r hr
      · rw [hr]; decide
      · rw [hr]; decide

/-- The `\r\n` that ends a frame is read as a line with no operation. -/
theorem crlf_step (c : Client CB) (rest : List Byte) :
    Client.parserLoopBody { c with r := ascii "\r\n" ++ rest } =
      Step.next { c with r := rest } := rfl

/-- C1, amended: for subject and reply tokens that are the UTF-8 text of non-empty
sequences of Unicode scalar values without white space, every `sid` in the range of the
64-bit `int`, and every payload of at most `maxAlloc` bytes (empty, or holding CR and LF
bytes), the read loop on `MSG <subject> <sid> <len>\r\n<payload>\r\n` calls `processMsg`
with exactly the subject, an empty reply, `sid` and the payload; on
`MSG <subject> <sid> <reply> <len>\r\n<payload>\r\n` with the subject, the reply, `sid`
and the payload; the payload is the `len` bytes after the header line, and the `\r\n`
after it is consumed by the next iteration. -/
theorem msg_decode (c : Client CB) (subject reply : List Nat) (sid : Int)
    (payload rest : List Byte) (hs : isToken subject) (hr : isToken reply)
    (hlo : -(2 ^ 63) ≤ sid) (hhi : sid < 2 ^ 63) (hlen : payload.length ≤ maxAlloc) :
    Client.parserLoopBody { c with r := msgFrame (utf8 subject) sid none payload ++ rest } =
        Step.next (Client.processMsg { c with r := ascii "\r\n" ++ rest }
          (utf8 subject) [] sid payload)
    ∧ Client.parserLoopBody
          { c with r := msgFrame (utf8 subject) sid (some (utf8 reply)) payload ++ rest } =
        Step.next (Client.processMsg { c with r := ascii "\r\n" ++ rest }
          (utf8 subject) (utf8 reply) sid payload)
    ∧ ∀ c1 : Client CB, Client.parserLoopBody { c1 with r := ascii "\r\n" ++ rest } =
        Step.next { c1 with r := rest } := by
  have h63 : payload.length < 2 ^ 63 := lt_of_le_of_lt hlen maxAlloc_lt
  obtain ⟨I, hI, sI⟩ := formatInt_scansAs sid hlo hhi
  obtain ⟨N, hN, sN⟩ := formatNat_scansAs payload.length h63
  refine ⟨?_, ?_, fun c1 => crlf_step c1 rest⟩
  · have := msg_step_noReply c subject I N sid payload rest hs sI sN
    rw [makeslice_ok _ hlen] at this
    simp only [ReadFull_append] at this
    simp only [msgFrame, hI, hN, List.append_assoc, List.nil_append] at this ⊢
    exact this
  · have := msg_step_reply c subject I reply N sid payload rest hs sI hr sN
    rw [makeslice_ok _ hlen] at this
    simp only [ReadFull_append] at this
    simp only [msgFrame, hI, hN, List.append_assoc, List.nil_append] at this ⊢
    exact this

/-- A frame as in C1 whose payload is longer than `maxAlloc` (and shorter than `2 ^ 63`
bytes, so that its length is scanned): `make` panics on the length declared, before a
byte of the payload is read, and `processMsg` is not called. -/
theorem msg_oversize (c : Client CB) (subject reply : List Nat) (sid : Int)
    (payload rest : List Byte) (hs : isToken subject) (hr : isToken reply)
    (hlo : -(2 ^ 63) ≤ sid) (hhi : sid < 2 ^ 63)
    (hover : maxAlloc < payload.length) (hlen : payload.length < 2 ^ 63) :
    Client.parserLoopBody { c with r := msgFrame (utf8 subject) sid none payload ++ rest } =
        Step.halt { c with r := payload ++ (ascii "\r\n" ++ rest) } Halt.panicMakeslice
    ∧ Client.parserLoopBody
          { c with r := msgFrame (utf8 subject) sid (some (utf8 reply)) payload ++ rest } =
        Step.halt { c with r := payload ++ (ascii "\r\n" ++ rest) } Halt.panicMakeslice := by
  obtain ⟨I, hI, sI⟩ := formatInt_scansAs sid hlo hhi
  obtain ⟨N, hN, sN⟩ := formatNat_scansAs payload.length hlen
  refine ⟨?_, ?_⟩
  · have := msg_step_noReply c subject I N sid payload rest hs sI sN
    rw [makeslice_over _ hover] at this
    simp only [msgFrame, hI, hN, List.append_assoc, List.nil_append] at this ⊢
    exact this
  · have := msg_step_reply c subject I reply N sid payload rest hs sI hr sN
    rw [makeslice_over _ hover] at this
    simp only [msgFrame, hI, hN, List.append_assoc, List.nil_append] at this ⊢
    exact this
/-! ## Dispatch of a decoded message -/

/-- C4: `processMsg` runs the callback registered under the subscription id once, with
the subject, reply and payload it was given, runs nothing when the id is not a key of
the registry, and leaves the registry and the id counter as they were. -/
theorem processMsg_dispatch (c : Client CB) (subj reply : List Byte) (sid : Int)
    (payload : List Byte) :
    (c.processMsg subj reply sid payload).trace =
        c.trace ++ Event.processMsg subj reply sid payload ::
          (match c.subs sid with
           | some cb => [Event.callback cb subj reply payload]
           | none => [])
      ∧ (c.processMsg subj reply sid payload).subs = c.subs
      ∧ (c.processMsg subj reply sid payload).sid = c.sid := by
  unfold Client.processMsg Client.Lock Client.Unlock
  cases h : c.subs sid <;> simp [h]

/-! ## The ping/pong gate -/

/-- C8 as stated fails: with two signals buffered `processPong` does not complete, the
send waits; the signal is not dropped. -/
theorem processPong_full_blocks :
    (gateWith 2).processPong = none ∧ (gateWith 2).processPong ≠ some (gateWith 2) := by
  constructor
  · rfl
  · intro h
    have h2 : (gateWith 2).processPong = none := rfl
    rw [h2] at h
    exact Option.noConfusion h

/-- C8, amended: on a channel of capacity 2 holding `k` signals, `processPong` enqueues
the signal and returns when `k < 2`, and waits in the send when `k = 2`. -/
theorem processPong_gate (c : Client CB) (k : Nat)
    (hp : c.pongs = some { cap := 2, len := k }) :
    c.processPong =
      if k < 2 then some { c with pongs := some { cap := 2, len := k + 1 }, mu := false }
      else none := by
  unfold Client.processPong Client.Lock Client.Unlock
  simp only [hp]

/-- The gate theorem at a channel holding one signal. -/
theorem processPong_gate_witness :
    (gateWith 1).processPong =
      some { gateWith 1 with pongs := some { cap := 2, len := 2 }, mu := false } :=
  processPong_gate (gateWith 1) 1 rfl

/-- C9 fails on the code: a first `Flush` times out, its `PONG` is decoded late and stays
in the channel, and a second `Flush` then succeeds although no `PONG` is decoded after
its `PING` was sent. -/
theorem flush_stale_pong :
    ((fresh "PONG\r\n").Flush false).2 = some Error.flushTimeout
    ∧ (((fresh "PONG\r\n").Flush false).1.runParserLoop 1).1.r = []
    ∧ (((fresh "PONG\r\n").Flush false).1.runParserLoop 1).1.pongs
        = some { cap := 2, len := 1 }
    ∧ (((((fresh "PONG\r\n").Flush false).1.runParserLoop 1).1).Flush false).2 = none := by
  refine ⟨?_, ?_, ?_, ?_⟩ <;> decide

/-! ## The mutex and the writes -/

/-- C10 fails on the code: `Publish` and `Subscribe` make every writer call with the
mutex held, but `Flush` writes and flushes its `PING` line, and `processPing` its `PONG`
line, with the mutex not held. -/
theorem writes_without_mutex :
    ((fresh "").Publish (ascii "foo") [] (ascii "bar")).1.trace =
        [Event.write (ascii "PUB foo  3\r\n") true, Event.write (ascii "bar") true,
         Event.write (ascii "\r\n") true, Event.flush true]
    ∧ ((fresh "").Subscribe (ascii "foo") [] ()).1.trace =
        [Event.write (ascii "SUB foo  1\r\n") true, Event.flush true]
    ∧ ((fresh "").Flush true).1.trace =
        [Event.write (ascii "PING\r\n") false, Event.flush false]
    ∧ (fresh "").processPing.trace =
        [Event.write (ascii "PONG\r\n") false, Event.flush false] := by
  refine ⟨?_, ?_, ?_, ?_⟩ <;> decide

/-! ## Control lines the read loop does not accept -/

/-- C5 as stated fails: `MSG foo 1 2\r\n` is not rejected as malformed; the header is
accepted with size 2 and the loop stops on the payload that is missing. -/
theorem msg_foo_1_2_not_malformed :
    ((fresh "MSG foo 1 2\r\n").runParserLoop 1).2 = some Halt.fatalGather
    ∧ ((fresh "MSG foo 1 2\r\n").runParserLoop 1).2 ≠ some Halt.fatalMalformed
    ∧ ((fresh "MSG foo 1 2\r\n").runParserLoop 1).2 ≠ some Halt.fatalScan
    ∧ ((fresh "MSG foo 1 2\r\nPING\r\n").runParserLoop 1).1.trace =
        [Event.processMsg (ascii "foo") [] 1 (ascii "PI")] := by
  refine ⟨?_, ?_, ?_, ?_⟩ <;> decide

/-- C5, amended: on the input `MSG foo 1 2\r\n` followed by the end of the stream, the
loop accepts the header (three arguments, size 2), finds no payload bytes and stops with
"problem gathering bytes"; `processMsg` is not called and no callback runs. -/
theorem msg_foo_1_2_gather (c : Client CB) (fuel : Nat) :
    Client.runParserLoop (fuel + 1) { c with r := ascii "MSG foo 1 2\r\n" } =
      ({ c with r := [] }, some Halt.fatalGather) := by
  rfl

/-- C6 fails on the code: the bare line `MSG\r\n` is not reported as a malformed control
line; indexing `args[1]` panics. -/
theorem bare_msg_panics (c : Client CB) (fuel : Nat) :
    Client.runParserLoop (fuel + 1) { c with r := ascii "MSG\r\n" } =
      ({ c with r := [] }, some Halt.panicIndex) := by
  rfl

/-- C7 fails on the code: a negative size is scanned without error and `make` panics,
and a size followed by other characters is accepted up to its last digit. -/
theorem negative_size_panics :
    ((fresh "MSG foo 1 -1\r\n").runParserLoop 1).2 = some Halt.panicMakeslice
    ∧ ((fresh "MSG foo 1 3x\r\nbar\r\n").runParserLoop 1).1.trace =
        [Event.processMsg (ascii "foo") [] 1 (ascii "bar")] := by
  refine ⟨?_, ?_⟩ <;> decide


/-- C1 as stated fails outside the 64-bit range, outside UTF-8 text and above the largest
allocation: a `sid` of `2 ^ 63` makes `Sscanf` fail and the loop stop before `processMsg`
is called, a subject that is the single byte `0xFF` reaches `processMsg` as the three
bytes of U+FFFD, and on the frame of a payload of `2 ^ 48 + 1` bytes `make` panics on the
length declared, before a byte of the payload is read. -/
theorem msg_decode_fails :
    ((fresh "MSG foo 9223372036854775808 3\r\nbar\r\n").runParserLoop 1).2
        = some Halt.fatalScan
    ∧ ((fresh "MSG foo 9223372036854775808 3\r\nbar\r\n").runParserLoop 1).1.trace = []
    ∧ ((Client.connected (ascii "MSG " ++ [0xFF] ++ ascii " 1 3\r\nbar\r\n") [] :
          Client Unit).runParserLoop 1).1.trace
        = [Event.processMsg [0xEF, 0xBF, 0xBD] [] 1 (ascii "bar")]
    ∧ ((Client.connected (ascii "MSG " ++ [0xFF] ++ ascii " 1 3\r\nbar\r\n") [] :
          Client Unit).runParserLoop 1).1.trace
        ≠ [Event.processMsg [0xFF] [] 1 (ascii "bar")]
    ∧ Client.parserLoopBody
          { fresh "" with
            r := msgFrame (ascii "foo") 1 none (List.replicate (2 ^ 48 + 1) 0) } =
        Step.halt { fresh "" with r := List.replicate (2 ^ 48 + 1) 0 ++ ascii "\r\n" }
          Halt.panicMakeslice := by
  refine ⟨by decide, by decide, by decide, by decide, ?_⟩
  have hfoo : utf8 [0x66, 0x6F, 0x6F] = ascii "foo" := by decide
  have hl : (List.replicate (2 ^ 48 + 1) (0 : Byte)).length = 2 ^ 48 + 1 :=
    List.length_replicate _ _
  have h := (msg_oversize (fresh "") [0x66, 0x6F, 0x6F] [0x66] 1
    (List.replicate (2 ^ 48 + 1) 0) [] ⟨by decide, by decide⟩ ⟨by decide, by decide⟩
    (by decide) (by decide) (by rw [hl]; unfold maxAlloc; omega) (by rw [hl]; norm_num)).1
  rw [hfoo, List.append_nil, List.append_nil] at h
  exact h

set_option maxRecDepth 100000 in
/-- The decoding theorem on `MSG foo 1 3\r\nbar\r\n` and `MSG foo 1 bar 4\r\nquux\r\n`. -/
theorem msg_decode_witness :
    isToken [0x66, 0x6F, 0x6F] ∧ isToken [0x62, 0x61, 0x72]
    ∧ Client.parserLoopBody (fresh "MSG foo 1 3\r\nbar\r\n") =
        Step.next (Client.processMsg (fresh "\r\n") (ascii "foo") [] 1 (ascii "bar"))
    ∧ Client.parserLoopBody (fresh "MSG foo 1 bar 4\r\nquux\r\n") =
        Step.next (Client.processMsg (fresh "\r\n") (ascii "foo") (ascii "bar") 1
          (ascii "quux")) :=
  ⟨⟨by decide, by decide⟩, ⟨by decide, by decide⟩,
    (msg_decode (fresh "") [0x66, 0x6F, 0x6F] [0x62, 0x61, 0x72] 1 (ascii "bar") []
      ⟨by decide, by decide⟩ ⟨by decide, by decide⟩ (by decide) (by decide) (by decide)).1,
    (msg_decode (fresh "") [0x66, 0x6F, 0x6F] [0x62, 0x61, 0x72] 1 (ascii "quux") []
      ⟨by decide, by decide⟩ ⟨by decide, by decide⟩ (by decide) (by decide) (by decide)).2.1⟩

/-- A `MSG` line with a space after the operation whose argument text does not hold
two or three spaces stops the loop with "malformed control line": nothing is scanned,
no payload is read and `processMsg` is not called. -/
theorem msg_wrong_count (c : Client CB) (a1 tail : List Byte)
    (hread : ReadString c.r = some (ascii "MSG " ++ a1, tail))
    (h3 : Count a1 + 1 ≠ 3) (h4 : Count a1 + 1 ≠ 4) :
    c.parserLoopBody = Step.halt { c with r := tail } Halt.fatalMalformed := by
  unfold Client.parserLoopBody
  rw [hread]
  simp only [SplitN2_MSG, TrimSpace_MSG, if_true, List.head?_cons, h3, h4, if_false]

/-! ## The read loop stops -/

theorem ReadString_shorter : ∀ (input line rest : List Byte),
    ReadString input = some (line, rest) → rest.length < input.length := by
  intro input
  induction input with
  | nil => intro line rest h; simp [ReadString] at h
  | cons b bs ih =>
    intro line rest h
    rw [ReadString] at h
    split at h
    · simp only [Option.some.injEq, Prod.mk.injEq] at h
      rw [← h.2]; simp
    · cases hr : ReadString bs with
      | none => rw [hr] at h; simp at h
      | some p =>
        obtain ⟨l1, r1⟩ := p
        rw [hr] at h
        simp only [Option.some.injEq, Prod.mk.injEq] at h
        have := ih l1 r1 hr
        rw [← h.2]
        simp only [List.length_cons]
        omega

theorem ReadFull_shorter (input : List Byte) (n : Nat) (p rest : List Byte)
    (h : ReadFull input n = some (p, rest)) : rest.length ≤ input.length := by
  unfold ReadFull at h
  split at h
  · simp only [Option.some.injEq, Prod.mk.injEq] at h
    rw [← h.2]; simp
  · simp at h

theorem processMsg_r (c : Client CB) (s r : List Byte) (sid : Int) (p : List Byte) :
    (c.processMsg s r sid p).r = c.r := by
  unfold Client.processMsg Client.Lock Client.Unlock
  dsimp only
  cases c.subs sid <;> rfl

theorem processPong_r (c c1 : Client CB) (h : c.processPong = some c1) : c1.r = c.r := by
  unfold Client.processPong Client.Lock Client.Unlock at h
  cases hp : c.pongs with
  | none => simp [hp] at h; rw [← h]
  | some ch =>
    simp only [hp] at h
    split at h
    · simp only [Option.some.injEq] at h; rw [← h]
    · simp at h

/-- Every iteration that does not stop the loop consumes input. -/
theorem parserLoopBody_shorter (c c1 : Client CB) (h : c.parserLoopBody = Step.next c1) :
    c1.r.length < c.r.length := by
  unfold Client.parserLoopBody at h
  cases hr : ReadString c.r with
  | none => rw [hr] at h; simp at h
  | some p =>
    obtain ⟨line, rest⟩ := p
    have hlt := ReadString_shorter c.r line rest hr
    rw [hr] at h
    simp only at h
    split at h
    · simp at h
    · split at h
      · split at h
        · simp at h
        · split at h
          · simp at h
          · split at h
            · simp at h
            · split at h
              · simp at h
              · rename_i hfull
                have := ReadFull_shorter _ _ _ _ hfull
                simp only [Step.next.injEq] at h
                rw [← h, processMsg_r]
                simp only at this ⊢
                omega
      · split at h
        · split at h
          · simp at h
          · simp only [Step.next.injEq] at h
            rw [← h]; exact hlt
        · split at h
          · simp only [Step.next.injEq] at h
            rw [← h]; exact hlt
          · split at h
            · split at h
              · simp at h
              · rename_i hp
                simp only [Step.next.injEq] at h
                rw [← h, processPong_r _ _ hp]; exact hlt
            · split at h
              · simp only [Step.next.injEq] at h
                rw [← h]; exact hlt
              · split at h
                · split at h
                  · simp at h
                  · simp only [Step.next.injEq] at h
                    rw [← h]; exact hlt
                · simp only [Step.next.injEq] at h
                  rw [← h]; exact hlt

/-- The read loop always stops: with more iterations allowed than bytes to read, it ends
in a `log.Fatalf`, a panic or a blocked send. -/
theorem runParserLoop_halts (fuel : Nat) : ∀ c : Client CB, c.r.length < fuel →
    ∃ h, (c.runParserLoop fuel).2 = some h := by
  induction fuel with
  | zero => intro c h; omega
  | succ n ih =>
    intro c hlen
    rw [Client.runParserLoop]
    cases hb : c.parserLoopBody with
    | next c1 =>
      have := parserLoopBody_shorter c c1 hb
      exact ih c1 (by omega)
    | halt c1 h => exact ⟨h, rfl⟩
end NatsClient
